import Mathlib

/-!
# logmin: template parsing, matching and the minimized-log encoding

A shallow embedding of `src/logmin.cpp`.  Strings and string views are lists of
characters, `std::ostream` is the list of characters written so far,
`std::istream` is the list of characters still to be read together with its
`eofbit` and `failbit`.  A C++ exception is the `error` branch of `Except`.
`int` has 32 bits and `size_t` 64; their values are integers and naturals with
the range checks of the library written out.  A loop that can run forever
(`TemplateMatch::Read` at the end of its input) takes a bound on its iterations.
-/

set_option autoImplicit false

/-- Exceptions (and the one undefined access) that the modelled code can raise. -/
inductive Error where
  /-- `std::runtime_error("empty line should not reach here!")` in `Template::Parse`. -/
  | empty_line
  /-- `std::runtime_error("bad template: %% is last symbol!")` in `Template::Parse`. -/
  | percent_is_last
  /-- `std::runtime_error("bad param spec %%" + c)` in `Template::Parse`. -/
  | bad_param_spec (c : Char)
  /-- `std::runtime_error("Can't shift by ...")` thrown by `Tape::Shift`. -/
  | cant_shift (by_ : Nat) (left : Nat)
  /-- `std::runtime_error("bad format")` thrown by `TemplateMatch::Read`. -/
  | bad_format
  /-- `std::invalid_argument` thrown by `std::stoi` when no conversion is possible. -/
  | invalid_argument
  /-- `std::out_of_range` thrown by `std::stoi` when the value does not fit an `int`. -/
  | out_of_range
  /-- `std::bad_variant_access` thrown by `std::get` on the wrong alternative. -/
  | bad_variant_access
  /-- An index past the end of a `std::vector` (`operator[]`, `back()`): undefined in C++. -/
  | out_of_bounds
  deriving DecidableEq, Repr

/-- Equality of results of a computation that may throw is decidable. -/
instance instDecidableEqExcept {ε α : Type} [DecidableEq ε] [DecidableEq α] :
    DecidableEq (Except ε α)
  | .ok a, .ok b =>
    if h : a = b then isTrue (congrArg Except.ok h)
    else isFalse (fun h2 => h (Except.ok.inj h2))
  | .error a, .error b =>
    if h : a = b then isTrue (congrArg Except.error h)
    else isFalse (fun h2 => h (Except.error.inj h2))
  | .ok _, .error _ => isFalse (fun h => Except.noConfusion h)
  | .error _, .ok _ => isFalse (fun h => Except.noConfusion h)

/-! ## Library primitives: character classes, decimal text, `std::stoi` -/

/-- Smallest value of the 32-bit `int`. -/
def INT_MIN : Int := -2147483648

/-- Largest value of the 32-bit `int`. -/
def INT_MAX : Int := 2147483647

/-- Largest value of the 64-bit `size_t`. -/
def SIZE_MAX : Nat := 18446744073709551615

/-- The C locale `isspace`: space, `\t`, `\n`, `\v`, `\f`, `\r`. -/
def isspace (c : Char) : Bool :=
  c = ' ' || (9 ≤ c.toNat && c.toNat ≤ 13)

/-- The C locale `isdigit`. -/
def isdigit (c : Char) : Bool :=
  48 ≤ c.toNat && c.toNat ≤ 57

/-- Value of a run of decimal digits, most significant first, continuing from `acc`. -/
def digitsValueFrom (acc : Nat) (ds : List Char) : Nat :=
  ds.foldl (fun a c => a * 10 + (c.toNat - 48)) acc

/-- Value of a run of decimal digits, most significant first. -/
def digitsValue (ds : List Char) : Nat :=
  digitsValueFrom 0 ds

/-- Decimal text of an unsigned value, as `std::to_string` and `operator<<` print it. -/
def natToString (n : Nat) : List Char :=
  Nat.toDigits 10 n

/-- Decimal text of an `int`, as `std::to_string(int)` and `operator<<(int)` print it. -/
def intToString (v : Int) : List Char :=
  if v < 0 then '-' :: natToString v.natAbs else natToString v.toNat

/-- The sign character, if any, at the head of a text: `(negative, characters used)`. -/
def readSign (s : List Char) : Bool × Nat :=
  match s with
  | '-' :: _ => (true, 1)
  | '+' :: _ => (false, 1)
  | _ => (false, 0)

/-- Signed value of a digit run. -/
def signedValue (negative : Bool) (ds : List Char) : Int :=
  if negative then -(digitsValue ds : Int) else (digitsValue ds : Int)

/-- `std::stoi(s, &pos)` in base 10: skip leading white space, take an optional
sign and the longest run of digits; returns the value and `pos`. -/
def stoi (s : List Char) : Except Error (Int × Nat) :=
  let ws := s.takeWhile isspace
  let afterWs := s.dropWhile isspace
  let sign := readSign afterWs
  let ds := (afterWs.drop sign.2).takeWhile isdigit
  if ds.isEmpty then .error Error.invalid_argument
  else
    let v := signedValue sign.1 ds
    if v < INT_MIN || INT_MAX < v then .error Error.out_of_range
    else .ok (v, ws.length + sign.2 + ds.length)

/-! ## Tape -/

/-- `struct Tape`: a cursor over the text that is still to be consumed. -/
structure Tape where
  input : List Char
  deriving DecidableEq, Repr

namespace Tape

/-- `Tape::Get`. -/
def Get (tape : Tape) : List Char :=
  tape.input

/-- `Tape::Shift`: drop `by_` characters, or throw when fewer are left. -/
def Shift (tape : Tape) (by_ : Nat) : Except Error Tape :=
  if tape.input.length < by_ then .error (Error.cant_shift by_ tape.input.length)
  else .ok ⟨tape.input.drop by_⟩

end Tape

/-! ## Template -/

namespace Template

/-- `Template::PartAny`, the variant of `PartConst`, `PartInt` and `PartString`. -/
inductive PartAny where
  | PartConst (s : List Char)
  | PartInt
  | PartString
  deriving DecidableEq, Repr

end Template

/-- `struct Template`. -/
structure Template where
  parts : List Template.PartAny
  deriving DecidableEq, Repr

namespace Template

open PartAny

/-- The statement `std::get<PartConst>(tpl.parts.back()).s.push_back(c)`. -/
def pushBackChar (parts : List PartAny) (c : Char) : Except Error (List PartAny) :=
  match parts.getLast? with
  | none => .error Error.out_of_bounds
  | some (PartConst s) => .ok (parts.dropLast ++ [PartConst (s ++ [c])])
  | some _ => .error Error.bad_variant_access

/-- The `while (!tape.Get().empty())` loop of `Template::Parse`, on the text left
on the tape.  `tape.Shift(2)` and `tape.Shift(1)` are executed for their throw;
the tape they leave is the tail the recursion continues with (`Tape.Shift_two`,
`Tape.Shift_one`). -/
def ParseLoop : List Char → List PartAny → Except Error (List PartAny)
  | [], parts => .ok parts
  | c :: rest, parts =>
    if c = '%' then
      match rest with
      | [] => .error Error.percent_is_last
      | d :: rest2 =>
        let step : Except Error (List PartAny) :=
          if d = '%' then pushBackChar parts '%'
          else if d = 's' then .ok (parts ++ [PartString, PartConst []])
          else if d = 'd' then .ok (parts ++ [PartInt, PartConst []])
          else .error (Error.bad_param_spec d)
        match step with
        | .error e => .error e
        | .ok parts2 =>
          match Tape.Shift ⟨c :: d :: rest2⟩ 2 with
          | .error e => .error e
          | .ok _ => ParseLoop rest2 parts2
    else
      match pushBackChar parts c with
      | .error e => .error e
      | .ok parts2 =>
        match Tape.Shift ⟨c :: rest⟩ 1 with
        | .error e => .error e
        | .ok _ => ParseLoop rest parts2

/-- `Template::Parse`. -/
def Parse (line : List Char) : Except Error Template :=
  if line.isEmpty then .error Error.empty_line
  else
    match ParseLoop line [PartConst []] with
    | .error e => .error e
    | .ok parts => .ok ⟨parts⟩

end Template

/-! ## TemplateMatch -/

namespace TemplateMatch

/-- `TemplateMatch::MatchAny`, the variant of `MatchConst`, `MatchInt` and `MatchString`. -/
inductive MatchAny where
  | MatchConst
  | MatchInt (val : Int)
  | MatchString (val : List Char)
  deriving DecidableEq, Repr

end TemplateMatch

/-- `struct TemplateMatch`. -/
structure TemplateMatch where
  parts : List TemplateMatch.MatchAny
  deriving DecidableEq, Repr

namespace TemplateMatch

open MatchAny Template.PartAny

/-- The loop of `PartTryMatcher::operator()(const PartString&)`: move characters
from the tape to `val` until the tape is empty or starts with a space.
`tape.Shift(1)` is executed for its throw; it leaves the tail (`Tape.Shift_one`). -/
def PartStringLoop : List Char → List Char → Except Error (Tape × List Char)
  | [], val => .ok (⟨[]⟩, val)
  | c :: rest, val =>
    if c = ' ' then .ok (⟨c :: rest⟩, val)
    else
      match Tape.Shift ⟨c :: rest⟩ 1 with
      | .error e => .error e
      | .ok _ => PartStringLoop rest (val ++ [c])

/-- `TemplateMatch::PartTryMatcher`: match one template part against the tape.
Returns the `bool` result, the value left in `out` and the tape afterwards. -/
def PartTryMatcher (part : Template.PartAny) (tape : Tape) :
    Except Error (Bool × MatchAny × Tape) :=
  match part with
  | PartConst s =>
    let ok : Bool := tape.Get.take s.length = s
    if ok then
      match tape.Shift s.length with
      | .error e => .error e
      | .ok tape2 => .ok (true, MatchConst, tape2)
    else .ok (false, MatchConst, tape)
  | PartInt =>
    match stoi tape.Get with
    | .error Error.invalid_argument => .ok (false, MatchInt 0, tape)
    | .error e => .error e
    | .ok (v, pos) =>
      match tape.Shift pos with
      | .error Error.invalid_argument => .ok (false, MatchInt v, tape)
      | .error e => .error e
      | .ok tape2 => .ok (true, MatchInt v, tape2)
  | PartString =>
    match PartStringLoop tape.Get [] with
    | .error e => .error e
    | .ok (tape2, val) => .ok (!val.isEmpty, MatchString val, tape2)

/-- The `for (const auto& part : tpl.parts)` loop of `TemplateMatch::TryMatch`. -/
def TryMatchLoop : List Template.PartAny → Tape → List MatchAny →
    Except Error (Option TemplateMatch × Tape)
  | [], tape, parts => .ok (some ⟨parts⟩, tape)
  | part :: rest, tape, parts =>
    match PartTryMatcher part tape with
    | .error e => .error e
    | .ok (false, _, tape2) => .ok (none, tape2)
    | .ok (true, match_part, tape2) => TryMatchLoop rest tape2 (parts ++ [match_part])

/-- `TemplateMatch::TryMatch`; the second component is the tape it leaves. -/
def TryMatch (tpl : Template) (tape : Tape) : Except Error (Option TemplateMatch × Tape) :=
  TryMatchLoop tpl.parts tape []

/-- `TemplateMatch::MatchedPartMaterilizer`. -/
def MatchedPartMaterilizer (orig_part : Template.PartAny) (m : MatchAny) :
    Except Error (List Char) :=
  match m with
  | MatchConst =>
    match orig_part with
    | PartConst s => .ok s
    | _ => .error Error.bad_variant_access
  | MatchInt val => .ok (intToString val)
  | MatchString val => .ok val

/-- The `for (size_t i = 0; i < n; ++i)` loop of `TemplateMatch::Materialize`,
from index `i`, over the match parts from `i` on. -/
def MaterializeLoop (tpl : Template) : Nat → List MatchAny → List Char →
    Except Error (List Char)
  | _, [], result => .ok result
  | i, m :: rest, result =>
    match tpl.parts.get? i with
    | none => .error Error.out_of_bounds
    | some orig_part =>
      match MatchedPartMaterilizer orig_part m with
      | .error e => .error e
      | .ok s => MaterializeLoop tpl (i + 1) rest (result ++ s)

/-- `TemplateMatch::Materialize`.  The size check of the source builds a
`std::runtime_error` and discards it (there is no `throw`), so it has no effect. -/
def Materialize (m : TemplateMatch) (tpl : Template) : Except Error (List Char) :=
  MaterializeLoop tpl 0 m.parts []

/-- `TemplateMatch::MatchedPartWriter`: the output stream after writing one part. -/
def MatchedPartWriter (out : List Char) (m : MatchAny) : List Char :=
  match m with
  | MatchConst => out ++ ['C']
  | MatchInt val => out ++ ['I'] ++ intToString val ++ ['|']
  | MatchString val => out ++ ['S'] ++ natToString val.length ++ [':'] ++ val

/-- `TemplateMatch::Write`: the output stream after writing the match. -/
def Write (m : TemplateMatch) (out : List Char) : List Char :=
  m.parts.foldl MatchedPartWriter out ++ ['\n']

end TemplateMatch

/-! ## Input streams -/

/-- A `std::istream`: the characters not yet read and the `eofbit` and `failbit`
of its state. -/
structure IStream where
  input : List Char
  eofbit : Bool
  failbit : Bool
  deriving DecidableEq, Repr

namespace IStream

/-- A stream in the good state over the given characters. -/
def ofInput (input : List Char) : IStream :=
  ⟨input, false, false⟩

/-- `good()`: neither `eofbit` nor `failbit` is set. -/
def good (s : IStream) : Bool :=
  !s.eofbit && !s.failbit

/-- `operator bool`, that is, `!fail()`. -/
def toBool (s : IStream) : Bool :=
  !s.failbit

/-- `in.get(c)`: read one character into `c`; on a stream that is not good or
is exhausted, set `failbit` (and `eofbit` at the end) and leave `c` as it was. -/
def get (s : IStream) (c : Char) : IStream × Char :=
  if s.good then
    match s.input with
    | [] => (⟨[], true, true⟩, c)
    | x :: rest => (⟨rest, s.eofbit, s.failbit⟩, x)
  else (⟨s.input, s.eofbit, true⟩, c)

/-- The sentry of a formatted extraction (`skipws` set): the stream after the
leading white space and `true`, or, when the stream was not good or holds only
white space, the stream with `failbit` set and `false`. -/
def sentry (s : IStream) : IStream × Bool :=
  if s.good then
    match s.input.dropWhile isspace with
    | [] => (⟨[], true, true⟩, false)
    | x :: rest => (⟨x :: rest, s.eofbit, s.failbit⟩, true)
  else (⟨s.input, s.eofbit, true⟩, false)

/-- `in >> val` for an `int val`: after the sentry, an optional sign and the
longest run of digits are consumed; without a digit `val` becomes 0 and with a
value out of range it is clamped, `failbit` being set in both cases; `eofbit` is
set when the scan reached the end of the input.  When the sentry fails `val`
keeps its content. -/
def extractInt (s : IStream) (val : Int) : IStream × Int :=
  match s.sentry with
  | (s1, false) => (s1, val)
  | (s1, true) =>
    let sign := readSign s1.input
    let ds := (s1.input.drop sign.2).takeWhile isdigit
    let rest := (s1.input.drop sign.2).dropWhile isdigit
    let v := signedValue sign.1 ds
    if ds.isEmpty then (⟨rest, rest.isEmpty, true⟩, 0)
    else if v < INT_MIN then (⟨rest, rest.isEmpty, true⟩, INT_MIN)
    else if INT_MAX < v then (⟨rest, rest.isEmpty, true⟩, INT_MAX)
    else (⟨rest, rest.isEmpty, false⟩, v)

/-- `in >> val` for a `size_t val`: as `extractInt`, the value of a negative
text being negated modulo 2^64 and a magnitude above `SIZE_MAX` being clamped. -/
def extractSize (s : IStream) (val : Nat) : IStream × Nat :=
  match s.sentry with
  | (s1, false) => (s1, val)
  | (s1, true) =>
    let sign := readSign s1.input
    let ds := (s1.input.drop sign.2).takeWhile isdigit
    let rest := (s1.input.drop sign.2).dropWhile isdigit
    let v := digitsValue ds
    if ds.isEmpty then (⟨rest, rest.isEmpty, true⟩, 0)
    else if SIZE_MAX < v then (⟨rest, rest.isEmpty, true⟩, SIZE_MAX)
    else if sign.1 then (⟨rest, rest.isEmpty, false⟩, (SIZE_MAX + 1 - v) % (SIZE_MAX + 1))
    else (⟨rest, rest.isEmpty, false⟩, v)

/-- `in.read(buf, len)` into a buffer of `len` characters `'.'`: the buffer
afterwards.  A short read fills the front of the buffer and sets `eofbit` and
`failbit`. -/
def read (s : IStream) (len : Nat) : IStream × List Char :=
  if s.good then
    if s.input.length < len then
      (⟨[], true, true⟩, s.input ++ List.replicate (len - s.input.length) '.')
    else (⟨s.input.drop len, s.eofbit, s.failbit⟩, s.input.take len)
  else (⟨s.input, s.eofbit, true⟩, List.replicate len '.')

end IStream

namespace TemplateMatch

open MatchAny

/-- The contents of the locals that `TemplateMatch::Read` declares without an
initial value (`char c`, `MatchInt m`, `size_t len`). -/
structure Uninit where
  c : Char
  val : Int
  len : Nat

/-- The `while (in.get(c), c != '\n')` loop of `TemplateMatch::Read`, run for at
most `fuel` iterations; `none` when the loop has not ended by then.  The
allocation of the buffer `std::string(len, '.')` is taken to succeed. -/
def ReadLoop (u : Uninit) : Nat → IStream → Char → List MatchAny →
    Option (Except Error (TemplateMatch × IStream))
  | 0, _, _, _ => none
  | fuel + 1, s, c, parts =>
    let (s1, c1) := s.get c
    if c1 = '\n' then some (.ok (⟨parts⟩, s1))
    else if c1 = 'C' then ReadLoop u fuel s1 c1 (parts ++ [MatchConst])
    else if c1 = 'I' then
      let (s2, val) := s1.extractInt u.val
      let (s3, c3) := s2.get c1
      if c3 ≠ '|' then some (.error Error.bad_format)
      else ReadLoop u fuel s3 c3 (parts ++ [MatchInt val])
    else if c1 = 'S' then
      let (s2, len) := s1.extractSize u.len
      let (s3, c3) := s2.get c1
      if c3 ≠ ':' then some (.error Error.bad_format)
      else
        let (s4, val) := s3.read len
        ReadLoop u fuel s4 c3 (parts ++ [MatchString val])
    else ReadLoop u fuel s1 c1 parts

/-- `TemplateMatch::Read`, run for at most `fuel` iterations of its loop: the
match and the stream after it, or the exception; `none` when the loop has not
ended within `fuel` iterations. -/
def Read (u : Uninit) (fuel : Nat) (s : IStream) :
    Option (Except Error (TemplateMatch × IStream)) :=
  ReadLoop u fuel s u.c []

end TemplateMatch

/-! ## The line pipeline -/

open TemplateMatch in
/-- The `for (size_t i = 0; i < tpls.size(); ++i)` loop of `MatchAndWriteEncoded`,
from index `i`, over the templates from `i` on: the output stream afterwards. -/
def MatchAndWriteEncodedLoop (line : List Char) : Nat → List Template → List Char →
    Except Error (List Char)
  | _, [], out => .ok out
  | i, tpl :: rest, out =>
    match TryMatch tpl ⟨line⟩ with
    | .error e => .error e
    | .ok (some m, _) => .ok (m.Write (out ++ natToString i))
    | .ok (none, _) => MatchAndWriteEncodedLoop line (i + 1) rest out

/-- `MatchAndWriteEncoded`: the minimized output stream after the call. -/
def MatchAndWriteEncoded (line : List Char) (out : List Char) (tpls : List Template) :
    Except Error (List Char) :=
  MatchAndWriteEncodedLoop line 0 tpls out

open TemplateMatch in
/-- The `while (inMin >> tpl_idx, inMin)` loop of `Decode`: the full-log output
stream afterwards and the exception, if any, that ended the run.  `fuel` bounds
the iterations of this loop and of the loop of each `TemplateMatch::Read`;
`none` when a loop has not ended by then.  `tpls[tpl_idx]` past the end of the
list is `Error.out_of_bounds`. -/
def DecodeLoop (u : Uninit) (tpls : List Template) : Nat → IStream → Nat → List Char →
    Option (List Char × Option Error)
  | 0, _, _, _ => none
  | fuel + 1, inMin, tpl_idx, outFull =>
    let (s1, idx) := inMin.extractSize tpl_idx
    if s1.toBool then
      match Read u fuel s1 with
      | none => none
      | some (.error e) => some (outFull, some e)
      | some (.ok (m, s2)) =>
        match tpls.get? idx with
        | none => some (outFull, some Error.out_of_bounds)
        | some tpl =>
          match m.Materialize tpl with
          | .error e => some (outFull, some e)
          | .ok text => DecodeLoop u tpls fuel s2 idx (outFull ++ text ++ ['\n'])
    else some (outFull, none)

/-- The decoding loop of `Decode` on the parsed templates and the minimized-log
stream, `tpl_idx0` being the content of the uninitialised `tpl_idx`: the
full-log output and the exception, if any. -/
def Decode (u : TemplateMatch.Uninit) (tpl_idx0 : Nat) (fuel : Nat) (tpls : List Template)
    (inMin : IStream) : Option (List Char × Option Error) :=
  DecodeLoop u tpls fuel inMin tpl_idx0 []

/-! ## Specification-side notions for templates -/

namespace Template

open PartAny

/-- A part is a literal. -/
def PartAny.isConst : PartAny → Bool
  | PartConst _ => true
  | _ => false

/-- A part is a hole (`%d` or `%s`). -/
def PartAny.isHole : PartAny → Bool
  | PartConst _ => false
  | _ => true

/-- Number of `%s` and `%d` specifiers met by a left-to-right scan in which a
`%` and the character after it form one unit. -/
def specifierCount : List Char → Nat
  | [] => 0
  | c :: rest =>
    if c = '%' then
      match rest with
      | [] => 0
      | d :: rest2 => (if d = 's' ∨ d = 'd' then 1 else 0) + specifierCount rest2
    else specifierCount rest

/-- Texts that a left-to-right scan consumes completely: sequences of units, a
unit being a character other than `%` or a `%` followed by `%`, `s` or `d`. -/
inductive ScanUnits : List Char → Prop where
  | nil : ScanUnits []
  | char (c : Char) (p : List Char) : c ≠ '%' → ScanUnits p → ScanUnits (c :: p)
  | spec (d : Char) (p : List Char) : d = '%' ∨ d = 's' ∨ d = 'd' → ScanUnits p →
      ScanUnits ('%' :: d :: p)

/-- The scan reaches a `%` that ends the line or is followed by a character
other than `%`, `s` and `d`. -/
def ReachesBadPercent (line : List Char) : Prop :=
  ∃ p rest, ScanUnits p ∧ line = p ++ '%' :: rest ∧
    (rest = [] ∨ ∃ d r, rest = d :: r ∧ d ≠ '%' ∧ d ≠ 's' ∧ d ≠ 'd')

/-- Part lists of the form literal, hole, literal, ..., hole, literal with `k` holes. -/
inductive Shape : Nat → List PartAny → Prop where
  | base (s : List Char) : Shape 0 [PartConst s]
  | step (k : Nat) (ps : List PartAny) (h : PartAny) (s : List Char) :
      Shape k ps → h.isHole = true → Shape (k + 1) (ps ++ [h, PartConst s])

end Template

/-! ## Specification-side notions for integer holes -/

/-- The text begins with an optional sign followed by at least one decimal digit. -/
def beginsWithSignedDecimal (t : List Char) : Bool :=
  match t with
  | [] => false
  | c :: rest =>
    if c = '+' ∨ c = '-' then
      match rest with
      | [] => false
      | d :: _ => isdigit d
    else isdigit c

/-- The text `t` is white space `ws`, then a sign `sign` (empty, `+` or `-`),
then the digits `ds`, at least one, then `rest`, which does not begin with a
digit: `ws ++ sign ++ ds` is the longest prefix of `t` that is a decimal number
after optional white space. -/
def IntPrefix (t ws sign ds rest : List Char) : Prop :=
  t = ws ++ (sign ++ (ds ++ rest)) ∧ (∀ c ∈ ws, isspace c = true) ∧
    (sign = [] ∨ sign = ['+'] ∨ sign = ['-']) ∧ ds ≠ [] ∧ (∀ c ∈ ds, isdigit c = true) ∧
    (∀ c, rest.head? = some c → isdigit c = false)

/-- Every integer hole met while the parts are matched against the tape faces
the canonical decimal text of the value it yields: the text it consumes is
`std::to_string` of its value. -/
def intHolesCanonical : List Template.PartAny → Tape → Bool
  | [], _ => true
  | part :: rest, tape =>
    match TemplateMatch.PartTryMatcher part tape with
    | .ok (true, m, tape2) =>
      (match m with
        | .MatchInt v => decide (intToString v ++ tape2.input = tape.input)
        | _ => true) && intHolesCanonical rest tape2
    | _ => true

/-- A matched value that the types of the source can hold: the value of a
`MatchInt` is a 32-bit `int` and the length of a `MatchString` is a `size_t`. -/
def TemplateMatch.MatchAny.representable : TemplateMatch.MatchAny → Bool
  | .MatchConst => true
  | .MatchInt val => decide (INT_MIN ≤ val ∧ val ≤ INT_MAX)
  | .MatchString val => decide (val.length ≤ SIZE_MAX)

/-! ## Specification-side notions for matches and records -/

/-- The kind of a matched value corresponds to the kind of a template part:
`MatchConst` for `PartConst`, `MatchInt` for `PartInt`, `MatchString` for
`PartString`. -/
def kindMatches : Template.PartAny → TemplateMatch.MatchAny → Bool
  | .PartConst _, .MatchConst => true
  | .PartInt, .MatchInt _ => true
  | .PartString, .MatchString _ => true
  | _, _ => false

/-- The token of one matched value in a minimized-log record: `C`; `I`, the
decimal text of the value, `|`; `S`, the decimal length, `:`, the bytes. -/
def serializedPart : TemplateMatch.MatchAny → List Char
  | .MatchConst => ['C']
  | .MatchInt v => ['I'] ++ intToString v ++ ['|']
  | .MatchString s => ['S'] ++ natToString s.length ++ [':'] ++ s

/-- The text with every `%` doubled. -/
def escapePercent : List Char → List Char
  | [] => []
  | c :: rest => if c = '%' then '%' :: '%' :: escapePercent rest else c :: escapePercent rest

/-! # Theorems -/

/-! ## Tape -/

theorem Tape.Shift_one (c : Char) (rest : List Char) :
    Tape.Shift ⟨c :: rest⟩ 1 = .ok ⟨rest⟩ := by
  simp [Tape.Shift]

theorem Tape.Shift_two (c d : Char) (rest : List Char) :
    Tape.Shift ⟨c :: d :: rest⟩ 2 = .ok ⟨rest⟩ := by
  simp [Tape.Shift]

/-! ## Template parsing -/

namespace Template

open PartAny

theorem pushBackChar_append_const (init : List PartAny) (s : List Char) (c : Char) :
    pushBackChar (init ++ [PartConst s]) c = .ok (init ++ [PartConst (s ++ [c])]) := by
  simp [pushBackChar]

theorem Shape.exists_last {k : Nat} {ps : List PartAny} (h : Shape k ps) :
    ∃ init s, ps = init ++ [PartConst s] ∧ ∀ s2, Shape k (init ++ [PartConst s2]) := by
  cases h with
  | base s => exact ⟨[], s, rfl, fun s2 => Shape.base s2⟩
  | step k ps hole s hps hh =>
    refine ⟨ps ++ [hole], s, by simp, fun s2 => ?_⟩
    have := Shape.step k ps hole s2 hps hh
    simpa using this

theorem Shape.pushBackChar {k : Nat} {ps : List PartAny} (h : Shape k ps) (c : Char) :
    ∃ ps2, Template.pushBackChar ps c = .ok ps2 ∧ Shape k ps2 := by
  obtain ⟨init, s, rfl, hall⟩ := h.exists_last
  exact ⟨_, pushBackChar_append_const init s c, hall _⟩

theorem ParseLoop_cons_char (c : Char) (rest : List Char) (parts : List PartAny)
    (hc : c ≠ '%') :
    ParseLoop (c :: rest) parts =
      match pushBackChar parts c with
      | .error e => .error e
      | .ok parts2 => ParseLoop rest parts2 := by
  rw [ParseLoop.eq_def]
  simp only [hc, if_false, Tape.Shift_one]

theorem ParseLoop_percent_nil (parts : List PartAny) :
    ParseLoop ['%'] parts = .error Error.percent_is_last := by
  simp [ParseLoop]

theorem ParseLoop_percent_percent (rest : List Char) (parts : List PartAny) :
    ParseLoop ('%' :: '%' :: rest) parts =
      match pushBackChar parts '%' with
      | .error e => .error e
      | .ok parts2 => ParseLoop rest parts2 := by
  rw [ParseLoop]
  simp only [if_true, Tape.Shift_two]

theorem ParseLoop_percent_s (rest : List Char) (parts : List PartAny) :
    ParseLoop ('%' :: 's' :: rest) parts =
      ParseLoop rest (parts ++ [PartString, PartConst []]) := by
  rw [ParseLoop]
  simp [Tape.Shift_two]

theorem ParseLoop_percent_d (rest : List Char) (parts : List PartAny) :
    ParseLoop ('%' :: 'd' :: rest) parts =
      ParseLoop rest (parts ++ [PartInt, PartConst []]) := by
  rw [ParseLoop]
  simp [Tape.Shift_two]

theorem ParseLoop_percent_bad (d : Char) (rest : List Char) (parts : List PartAny)
    (h1 : d ≠ '%') (h2 : d ≠ 's') (h3 : d ≠ 'd') :
    ParseLoop ('%' :: d :: rest) parts = .error (Error.bad_param_spec d) := by
  simp [ParseLoop, h1, h2, h3]

end Template

namespace Template

open PartAny

theorem ParseLoop_shape : ∀ (n : Nat) (l : List Char), l.length ≤ n →
    ∀ (k : Nat) (parts parts2 : List PartAny), Shape k parts →
      ParseLoop l parts = .ok parts2 → Shape (k + specifierCount l) parts2 := by
  intro n
  induction n with
  | zero =>
    intro l hl k parts parts2 hs h
    have : l = [] := List.length_eq_zero.mp (Nat.le_zero.mp hl)
    subst this
    simp only [ParseLoop] at h
    cases h
    simpa [specifierCount] using hs
  | succ n ih =>
    intro l hl k parts parts2 hs h
    match l, hl, h with
    | [], _, h =>
      simp only [ParseLoop] at h
      cases h
      simpa [specifierCount] using hs
    | c :: rest, hl, h =>
      by_cases hc : c = '%'
      · subst hc
        match rest, hl, h with
        | [], _, h => simp [ParseLoop_percent_nil] at h
        | d :: rest2, hl, h =>
          have hlen : rest2.length ≤ n := by simp at hl; omega
          by_cases h1 : d = '%'
          · subst h1
            rw [ParseLoop_percent_percent] at h
            obtain ⟨ps2, hpb, hs2⟩ := hs.pushBackChar '%'
            rw [hpb] at h
            have := ih rest2 hlen k ps2 parts2 hs2 h
            simpa [specifierCount] using this
          · by_cases h2 : d = 's'
            · subst h2
              rw [ParseLoop_percent_s] at h
              have := ih rest2 hlen (k + 1) _ parts2
                (Shape.step k parts PartString [] hs rfl) h
              simp only [specifierCount, if_true, true_or]
              rw [← Nat.add_assoc]
              exact this
            · by_cases h3 : d = 'd'
              · subst h3
                rw [ParseLoop_percent_d] at h
                have := ih rest2 hlen (k + 1) _ parts2
                  (Shape.step k parts PartInt [] hs rfl) h
                simp only [specifierCount, if_true, or_true]
                rw [← Nat.add_assoc]
                exact this
              · rw [ParseLoop_percent_bad d rest2 parts h1 h2 h3] at h
                cases h
      · have hlen : rest.length ≤ n := by simp at hl; omega
        rw [ParseLoop_cons_char c rest parts hc] at h
        obtain ⟨ps2, hpb, hs2⟩ := hs.pushBackChar c
        rw [hpb] at h
        have := ih rest hlen k ps2 parts2 hs2 h
        rw [specifierCount.eq_def]
        simpa [hc] using this

theorem Shape.length {k : Nat} {ps : List PartAny} (h : Shape k ps) :
    ps.length = 2 * k + 1 := by
  induction h with
  | base s => rfl
  | step k ps hole s _ _ ih => simp [ih]; omega

theorem Shape.get?_isHole {k : Nat} {ps : List PartAny} (h : Shape k ps) :
    ∀ (i : Nat) (p : PartAny), ps.get? i = some p → (p.isHole = true ↔ i % 2 = 1) := by
  induction h with
  | base s =>
    intro i p hp
    match i, hp with
    | 0, hp =>
      simp at hp
      subst hp
      simp [PartAny.isHole]
    | i + 1, hp => simp at hp
  | step k ps hole s hps hh ih =>
    intro i p hp
    have hlen := hps.length
    by_cases hi : i < ps.length
    · rw [List.get?_eq_getElem?, List.getElem?_append_left hi, ← List.get?_eq_getElem?] at hp
      exact ih i p hp
    · rw [List.get?_eq_getElem?, List.getElem?_append_right (Nat.le_of_not_lt hi)] at hp
      by_cases h0 : i - ps.length = 0
      · rw [h0] at hp
        simp at hp
        subst hp
        simp [hh]
        omega
      · by_cases h1 : i - ps.length = 1
        · rw [h1] at hp
          simp at hp
          subst hp
          simp [PartAny.isHole]
          omega
        · have : 2 ≤ i - ps.length := by omega
          obtain ⟨j, hj⟩ : ∃ j, i - ps.length = j + 2 := ⟨i - ps.length - 2, by omega⟩
          rw [hj] at hp
          simp at hp

end Template

namespace Template

open PartAny

theorem PartAny.isConst_eq_not_isHole (p : PartAny) : p.isConst = !p.isHole := by
  cases p <;> rfl

theorem PartAny.exists_of_isConst {p : PartAny} (h : p.isConst = true) :
    ∃ s, p = PartConst s := by
  cases p with
  | PartConst s => exact ⟨s, rfl⟩
  | PartInt => cases h
  | PartString => cases h

theorem Parse_ok_shape {line : List Char} {T : Template} (h : Parse line = .ok T) :
    Shape (specifierCount line) T.parts := by
  unfold Parse at h
  split at h
  · cases h
  · split at h
    · cases h
    · rename_i parts hp
      cases h
      have := ParseLoop_shape line.length line (Nat.le_refl _) 0 _ parts (Shape.base []) hp
      simpa using this

/-- C5: when `Template::Parse` succeeds, the parts are not empty, the first and
the last part are literals, no two holes and no two literals are adjacent, and
the list has length `2k+1`, `k` the number of `%s`/`%d` specifiers of the line,
with a literal at every even index and a hole at every odd index. -/
theorem Parse_parts_alternate (line : List Char) (T : Template)
    (h : Parse line = .ok T) :
    T.parts ≠ [] ∧
    (∃ s, T.parts.head? = some (PartConst s)) ∧
    (∃ s, T.parts.getLast? = some (PartConst s)) ∧
    (∀ i p q, T.parts.get? i = some p → T.parts.get? (i + 1) = some q →
      ¬ (p.isHole = true ∧ q.isHole = true)) ∧
    (∀ i p q, T.parts.get? i = some p → T.parts.get? (i + 1) = some q →
      ¬ (p.isConst = true ∧ q.isConst = true)) ∧
    T.parts.length = 2 * specifierCount line + 1 ∧
    (∀ i p, T.parts.get? i = some p →
      (i % 2 = 0 → p.isConst = true) ∧ (i % 2 = 1 → p.isHole = true)) := by
  have hs := Parse_ok_shape h
  have hlen := hs.length
  have hget := hs.get?_isHole
  refine ⟨?_, ?_, ?_, ?_, ?_, hlen, ?_⟩
  · intro hnil
    rw [hnil] at hlen
    simp at hlen
  · match hp : T.parts with
    | [] => rw [hp] at hlen; simp at hlen
    | p :: rest =>
      have h0 : T.parts.get? 0 = some p := by rw [hp]; rfl
      have := hget 0 p h0
      have hc : p.isConst = true := by
        rw [PartAny.isConst_eq_not_isHole]
        cases hh : p.isHole
        · rfl
        · simp [hh] at this
      obtain ⟨s, rfl⟩ := PartAny.exists_of_isConst hc
      exact ⟨s, rfl⟩
  · obtain ⟨init, s, hps, _⟩ := hs.exists_last
    exact ⟨s, by rw [hps]; simp⟩
  · intro i p q hp hq hboth
    have h1 := (hget i p hp).mp hboth.1
    have h2 := (hget (i + 1) q hq).mp hboth.2
    omega
  · intro i p q hp hq hboth
    rw [PartAny.isConst_eq_not_isHole] at hboth
    rw [PartAny.isConst_eq_not_isHole] at hboth
    have h1 : ¬ i % 2 = 1 := fun hi => by
      have := (hget i p hp).mpr hi
      simp [this] at hboth
    have h2 : ¬ (i + 1) % 2 = 1 := fun hi => by
      have := (hget (i + 1) q hq).mpr hi
      simp [this] at hboth
    omega
  · intro i p hp
    constructor
    · intro hi
      rw [PartAny.isConst_eq_not_isHole]
      cases hh : p.isHole
      · rfl
      · have := (hget i p hp).mp hh
        omega
    · intro hi
      exact (hget i p hp).mpr hi

/-- An instance of `Parse_parts_alternate`: the template `GET %s took %d ms`. -/
theorem Parse_parts_alternate_witness :
    Parse "GET %s took %d ms".toList =
        .ok ⟨[PartConst "GET ".toList, PartString, PartConst " took ".toList, PartInt,
          PartConst " ms".toList]⟩ ∧
      (5 : Nat) = 2 * specifierCount "GET %s took %d ms".toList + 1 :=
  ⟨by decide,
    (Parse_parts_alternate "GET %s took %d ms".toList
      ⟨[PartConst "GET ".toList, PartString, PartConst " took ".toList, PartInt,
        PartConst " ms".toList]⟩ (by decide)).2.2.2.2.2.1⟩

end Template

namespace Template

open PartAny

theorem ParseLoop_error_reaches : ∀ (n : Nat) (l : List Char), l.length ≤ n →
    ∀ (k : Nat) (parts : List PartAny) (e : Error), Shape k parts →
      ParseLoop l parts = .error e → ReachesBadPercent l := by
  intro n
  induction n with
  | zero =>
    intro l hl k parts e hs h
    have : l = [] := List.length_eq_zero.mp (Nat.le_zero.mp hl)
    subst this
    simp only [ParseLoop] at h
    cases h
  | succ n ih =>
    intro l hl k parts e hs h
    match l, hl, h with
    | [], _, h =>
      simp only [ParseLoop] at h
      cases h
    | c :: rest, hl, h =>
      by_cases hc : c = '%'
      · subst hc
        match rest, hl, h with
        | [], _, _ => exact ⟨[], [], ScanUnits.nil, rfl, Or.inl rfl⟩
        | d :: rest2, hl, h =>
          have hlen : rest2.length ≤ n := by simp at hl; omega
          by_cases h1 : d = '%'
          · subst h1
            rw [ParseLoop_percent_percent] at h
            obtain ⟨ps2, hpb, hs2⟩ := hs.pushBackChar '%'
            rw [hpb] at h
            obtain ⟨p, r, hp, hl2, hr⟩ := ih rest2 hlen k ps2 e hs2 h
            exact ⟨'%' :: '%' :: p, r, ScanUnits.spec _ _ (Or.inl rfl) hp,
              by rw [hl2]; rfl, hr⟩
          · by_cases h2 : d = 's'
            · subst h2
              rw [ParseLoop_percent_s] at h
              obtain ⟨p, r, hp, hl2, hr⟩ := ih rest2 hlen (k + 1) _ e
                (Shape.step k parts PartString [] hs rfl) h
              exact ⟨'%' :: 's' :: p, r, ScanUnits.spec _ _ (Or.inr (Or.inl rfl)) hp,
                by rw [hl2]; rfl, hr⟩
            · by_cases h3 : d = 'd'
              · subst h3
                rw [ParseLoop_percent_d] at h
                obtain ⟨p, r, hp, hl2, hr⟩ := ih rest2 hlen (k + 1) _ e
                  (Shape.step k parts PartInt [] hs rfl) h
                exact ⟨'%' :: 'd' :: p, r, ScanUnits.spec _ _ (Or.inr (Or.inr rfl)) hp,
                  by rw [hl2]; rfl, hr⟩
              · exact ⟨[], d :: rest2, ScanUnits.nil, rfl,
                  Or.inr ⟨d, rest2, rfl, h1, h2, h3⟩⟩
      · have hlen : rest.length ≤ n := by simp at hl; omega
        rw [ParseLoop_cons_char c rest parts hc] at h
        obtain ⟨ps2, hpb, hs2⟩ := hs.pushBackChar c
        rw [hpb] at h
        obtain ⟨p, r, hp, hl2, hr⟩ := ih rest hlen k ps2 e hs2 h
        exact ⟨c :: p, r, ScanUnits.char c p hc hp, by rw [hl2]; rfl, hr⟩

theorem ParseLoop_reaches_error {p : List Char} (hp : ScanUnits p) :
    ∀ (rest : List Char) (k : Nat) (parts : List PartAny), Shape k parts →
      (rest = [] ∨ ∃ d r, rest = d :: r ∧ d ≠ '%' ∧ d ≠ 's' ∧ d ≠ 'd') →
      ∃ e, ParseLoop (p ++ '%' :: rest) parts = .error e := by
  induction hp with
  | nil =>
    intro rest k parts _ hr
    rcases hr with rfl | ⟨d, r, rfl, h1, h2, h3⟩
    · exact ⟨_, ParseLoop_percent_nil parts⟩
    · exact ⟨_, ParseLoop_percent_bad d r parts h1 h2 h3⟩
  | char c p hc _ ih =>
    intro rest k parts hs hr
    obtain ⟨ps2, hpb, hs2⟩ := hs.pushBackChar c
    obtain ⟨e, he⟩ := ih rest k ps2 hs2 hr
    refine ⟨e, ?_⟩
    rw [List.cons_append, ParseLoop_cons_char c _ parts hc, hpb]
    exact he
  | spec d p hd _ ih =>
    intro rest k parts hs hr
    rcases hd with rfl | rfl | rfl
    · obtain ⟨ps2, hpb, hs2⟩ := hs.pushBackChar '%'
      obtain ⟨e, he⟩ := ih rest k ps2 hs2 hr
      refine ⟨e, ?_⟩
      rw [List.cons_append, List.cons_append, ParseLoop_percent_percent, hpb]
      exact he
    · obtain ⟨e, he⟩ := ih rest (k + 1) _ (Shape.step k parts PartString [] hs rfl) hr
      refine ⟨e, ?_⟩
      rw [List.cons_append, List.cons_append, ParseLoop_percent_s]
      exact he
    · obtain ⟨e, he⟩ := ih rest (k + 1) _ (Shape.step k parts PartInt [] hs rfl) hr
      refine ⟨e, ?_⟩
      rw [List.cons_append, List.cons_append, ParseLoop_percent_d]
      exact he

/-- C6: `Template::Parse` fails exactly on the empty line and on the lines in
which the left-to-right scan reaches a `%` that is the last character or is
followed by a character other than `%`, `s` and `d`; on every other line it
returns a template.  `Parse("bad%")` fails. -/
theorem Parse_fails_iff (line : List Char) :
    ((∃ e, Parse line = .error e) ↔ (line = [] ∨ ReachesBadPercent line)) ∧
    ((∃ T, Parse line = .ok T) ↔ ¬ (line = [] ∨ ReachesBadPercent line)) ∧
    Parse "bad%".toList = .error Error.percent_is_last := by
  have key : (∃ e, Parse line = .error e) ↔ (line = [] ∨ ReachesBadPercent line) := by
    constructor
    · rintro ⟨e, he⟩
      unfold Parse at he
      split at he
      · rename_i hempty
        exact Or.inl (List.isEmpty_iff.mp hempty)
      · split at he
        · rename_i e2 hp
          exact Or.inr
            (ParseLoop_error_reaches line.length line (Nat.le_refl _) 0 _ e2 (Shape.base []) hp)
        · cases he
    · rintro (rfl | ⟨p, rest, hp, rfl, hr⟩)
      · exact ⟨_, rfl⟩
      · obtain ⟨e, he⟩ := ParseLoop_reaches_error hp rest 0 _ (Shape.base []) hr
        refine ⟨e, ?_⟩
        unfold Parse
        have hne : (p ++ '%' :: rest).isEmpty = false := by
          cases p <;> rfl
        rw [hne, he]
        rfl
  refine ⟨key, ?_, by decide⟩
  rw [← key]
  cases hP : Parse line with
  | error e => simp
  | ok T => simp

end Template

/-! ## Matching one part -/

namespace TemplateMatch

open MatchAny Template.PartAny

theorem dropWhile_eq_drop_takeWhile (f : Char → Bool) (t : List Char) :
    t.dropWhile f = t.drop (t.takeWhile f).length := by
  induction t with
  | nil => rfl
  | cons c rest ih =>
    cases hc : f c
    · simp [List.dropWhile_cons, List.takeWhile_cons, hc]
    · simp [List.dropWhile_cons, List.takeWhile_cons, hc, ih]

theorem PartStringLoop_eq (t val : List Char) :
    PartStringLoop t val =
      .ok (⟨t.dropWhile (fun c => c != ' ')⟩, val ++ t.takeWhile (fun c => c != ' ')) := by
  induction t generalizing val with
  | nil => simp [PartStringLoop]
  | cons c rest ih =>
    by_cases hc : c = ' '
    · subst hc
      simp [PartStringLoop]
    · simp [PartStringLoop, hc, Tape.Shift_one, ih]

theorem PartTryMatcher_string (t : List Char) :
    PartTryMatcher PartString ⟨t⟩ =
      .ok (!(t.takeWhile (fun c => c != ' ')).isEmpty,
        MatchString (t.takeWhile (fun c => c != ' ')),
        ⟨t.dropWhile (fun c => c != ' ')⟩) := by
  simp [PartTryMatcher, Tape.Get, PartStringLoop_eq]

theorem takeWhile_not_space_longest (t : List Char) :
    ∀ p : List Char, p <+: t → ' ' ∉ p →
      p.length ≤ (t.takeWhile (fun c => c != ' ')).length := by
  induction t with
  | nil =>
    intro p hp _
    rw [List.prefix_nil] at hp
    simp [hp]
  | cons c rest ih =>
    intro p hp hsp
    match p, hp, hsp with
    | [], _, _ => simp
    | d :: p2, hp, hsp =>
      rw [List.cons_prefix_cons] at hp
      obtain ⟨rfl, hp2⟩ := hp
      have hd : d ≠ ' ' := fun h => hsp (by simp [h])
      have hsp2 : ' ' ∉ p2 := fun h => hsp (List.mem_cons_of_mem _ h)
      have := ih p2 hp2 hsp2
      simp [List.takeWhile_cons, hd]
      exact this

theorem PartTryMatcher_const (s t : List Char) :
    PartTryMatcher (PartConst s) ⟨t⟩ =
      if s <+: t then .ok (true, MatchConst, ⟨t.drop s.length⟩)
      else .ok (false, MatchConst, ⟨t⟩) := by
  by_cases h : s <+: t
  · have hlen : ¬ t.length < s.length := Nat.not_lt.mpr h.length_le
    have htake : List.take s.length t = s := (List.prefix_iff_eq_take.mp h).symm
    simp [PartTryMatcher, Tape.Get, Tape.Shift, h, hlen, htake]
  · have htake : ¬ List.take s.length t = s := fun h2 =>
      h (List.prefix_iff_eq_take.mpr h2.symm)
    simp [PartTryMatcher, Tape.Get, h, htake]

theorem TryMatchLoop_append (pre post : List Template.PartAny) :
    ∀ (tape : Tape) (acc : List MatchAny),
      TryMatchLoop (pre ++ post) tape acc =
        match TryMatchLoop pre tape acc with
        | .error e => .error e
        | .ok (none, tape2) => .ok (none, tape2)
        | .ok (some m, tape2) => TryMatchLoop post tape2 m.parts := by
  induction pre with
  | nil => intro tape acc; simp [TryMatchLoop]
  | cons part rest ih =>
    intro tape acc
    simp only [List.cons_append, TryMatchLoop]
    cases hp : PartTryMatcher part tape with
    | error e => simp
    | ok r =>
      obtain ⟨b, m, tape2⟩ := r
      cases b
      · simp
      · simp [ih]

/-- C9: `PartTryMatcher` on a `PartString` produces `MatchString(v)`, `v` being
the longest prefix of the remaining text without a space, consumes exactly the
characters of `v`, and succeeds exactly when `v` is not empty, that is, when
the text is not empty and does not start with a space.  The template `%s` does
not match the empty line, and on `abc def` it binds `abc` and leaves ` def`. -/
theorem PartString_match :
    (∀ t : List Char, ∃ v rest : List Char,
      PartTryMatcher PartString ⟨t⟩ = .ok (!v.isEmpty, MatchString v, ⟨rest⟩) ∧
      t = v ++ rest ∧ rest = t.drop v.length ∧ ' ' ∉ v ∧
      (∀ p : List Char, p <+: t → ' ' ∉ p → p.length ≤ v.length) ∧
      (v ≠ [] ↔ (t ≠ [] ∧ t.head? ≠ some ' '))) ∧
    (Template.Parse "%s".toList).bind (fun T => TryMatch T ⟨[]⟩) = .ok (none, ⟨[]⟩) ∧
    (Template.Parse "%s".toList).bind (fun T => TryMatch T ⟨"abc def".toList⟩) =
      .ok (some ⟨[MatchConst, MatchString "abc".toList, MatchConst]⟩, ⟨" def".toList⟩) := by
  refine ⟨fun t => ?_, by decide, by decide⟩
  refine ⟨t.takeWhile (fun c => c != ' '), t.dropWhile (fun c => c != ' '),
    PartTryMatcher_string t, (List.takeWhile_append_dropWhile _ t).symm, ?_, ?_,
    takeWhile_not_space_longest t, ?_⟩
  · exact dropWhile_eq_drop_takeWhile _ t
  · intro hmem
    have := List.mem_takeWhile_imp hmem
    simp at this
  · cases t with
    | nil => simp
    | cons c rest =>
      by_cases hc : c = ' '
      · simp [List.takeWhile_cons, hc]
      · simp [List.takeWhile_cons, hc]

/-- C10: `PartTryMatcher` on a `PartConst` with text `s` succeeds exactly when
`s` is a prefix of the remaining text `t`; it then consumes `len(s)` characters
and produces `MatchConst`; otherwise it consumes nothing, and `TryMatch` on a
template that reaches this literal with `t` left returns no match. -/
theorem PartConst_match (s t : List Char) :
    ((∃ m tape2, PartTryMatcher (PartConst s) ⟨t⟩ = .ok (true, m, tape2)) ↔ s <+: t) ∧
    (s <+: t →
      PartTryMatcher (PartConst s) ⟨t⟩ = .ok (true, MatchConst, ⟨t.drop s.length⟩) ∧
      (t.drop s.length).length + s.length = t.length) ∧
    (¬ s <+: t →
      PartTryMatcher (PartConst s) ⟨t⟩ = .ok (false, MatchConst, ⟨t⟩) ∧
      ∀ (pre post : List Template.PartAny) (line : List Char) (m : TemplateMatch),
        TryMatch ⟨pre⟩ ⟨line⟩ = .ok (some m, ⟨t⟩) →
        TryMatch ⟨pre ++ PartConst s :: post⟩ ⟨line⟩ = .ok (none, ⟨t⟩)) := by
  have hc := PartTryMatcher_const s t
  refine ⟨?_, ?_, ?_⟩
  · by_cases h : s <+: t
    · simp [hc, h]
    · simp [hc, h]
  · intro h
    refine ⟨by simp [hc, h], ?_⟩
    have := h.length_le
    simp
    omega
  · intro h
    refine ⟨by simp [hc, h], ?_⟩
    intro pre post line m hpre
    unfold TryMatch at hpre ⊢
    simp only at hpre ⊢
    rw [TryMatchLoop_append, hpre]
    simp [TryMatchLoop, hc, h]

end TemplateMatch

/-! ## `std::stoi` and integer holes -/

theorem takeWhile_append_stop (f : Char → Bool) (a b : List Char)
    (ha : ∀ c ∈ a, f c = true) (hb : ∀ c, b.head? = some c → f c = false) :
    (a ++ b).takeWhile f = a := by
  induction a with
  | nil =>
    cases b with
    | nil => rfl
    | cons c rest => simp [List.takeWhile_cons, hb c rfl]
  | cons x xs ih =>
    have hx : f x = true := ha x (by simp)
    simp only [List.cons_append, List.takeWhile_cons, hx, if_true]
    rw [ih (fun c hc => ha c (List.mem_cons_of_mem _ hc))]

theorem dropWhile_append_stop (f : Char → Bool) (a b : List Char)
    (ha : ∀ c ∈ a, f c = true) (hb : ∀ c, b.head? = some c → f c = false) :
    (a ++ b).dropWhile f = b := by
  induction a with
  | nil =>
    cases b with
    | nil => rfl
    | cons c rest => simp [List.dropWhile_cons, hb c rfl]
  | cons x xs ih =>
    have hx : f x = true := ha x (by simp)
    simp only [List.cons_append, List.dropWhile_cons, hx, if_true]
    exact ih (fun c hc => ha c (List.mem_cons_of_mem _ hc))

theorem takeWhile_all (f : Char → Bool) (t : List Char) :
    ∀ c ∈ t.takeWhile f, f c = true := fun _ hc => List.mem_takeWhile_imp hc

theorem dropWhile_head (f : Char → Bool) (t : List Char) :
    ∀ c, (t.dropWhile f).head? = some c → f c = false := by
  induction t with
  | nil => intro c hc; simp at hc
  | cons x xs ih =>
    intro c hc
    cases hx : f x
    · simp [List.dropWhile_cons, hx] at hc
      rw [← hc]; exact hx
    · simp only [List.dropWhile_cons, hx, if_true] at hc
      exact ih c hc

theorem isdigit_not_space {c : Char} (h : isdigit c = true) : isspace c = false := by
  simp only [isdigit, Bool.and_eq_true, decide_eq_true_eq] at h
  have hne : c ≠ ' ' := by
    rintro rfl
    have : (' ' : Char).toNat = 32 := rfl
    omega
  simp only [isspace, Bool.or_eq_false_iff, decide_eq_false_iff_not, Bool.and_eq_false_iff]
  exact ⟨hne, Or.inr (by omega)⟩

theorem isdigit_ne_plus {c : Char} (h : isdigit c = true) : c ≠ '+' := by
  rintro rfl
  exact absurd h (by decide)

theorem isdigit_ne_minus {c : Char} (h : isdigit c = true) : c ≠ '-' := by
  rintro rfl
  exact absurd h (by decide)

theorem readSign_of_digit {c : Char} (rest : List Char) (h : isdigit c = true) :
    readSign (c :: rest) = (false, 0) := by
  have h1 := isdigit_ne_plus h
  have h2 := isdigit_ne_minus h
  unfold readSign
  split
  · rename_i heq; cases heq; exact absurd rfl h2
  · rename_i heq; cases heq; exact absurd rfl h1
  · rfl

theorem readSign_cases (s : List Char) :
    (readSign s = (false, 0) ∧ ∀ c, s.head? = some c → c ≠ '+' ∧ c ≠ '-') ∨
    (∃ rest, s = '+' :: rest ∧ readSign s = (false, 1)) ∨
    (∃ rest, s = '-' :: rest ∧ readSign s = (true, 1)) := by
  unfold readSign
  split
  · rename_i rest; exact Or.inr (Or.inr ⟨rest, rfl, rfl⟩)
  · rename_i rest; exact Or.inr (Or.inl ⟨rest, rfl, rfl⟩)
  · rename_i h1 h2
    refine Or.inl ⟨rfl, ?_⟩
    intro c hc
    cases s with
    | nil => simp at hc
    | cons x xs =>
      simp at hc
      subst hc
      exact ⟨fun h => h2 xs (by rw [h]), fun h => h1 xs (by rw [h])⟩

theorem IntPrefix.computed {t ws sign ds rest : List Char} (h : IntPrefix t ws sign ds rest) :
    t.takeWhile isspace = ws ∧ t.dropWhile isspace = sign ++ (ds ++ rest) ∧
    readSign (sign ++ (ds ++ rest)) = (decide (sign = ['-']), sign.length) ∧
    (ds ++ rest).takeWhile isdigit = ds ∧ (ds ++ rest).dropWhile isdigit = rest := by
  obtain ⟨ht, hws, hsign, hne, hds, hrest⟩ := h
  obtain ⟨d, ds2, rfl⟩ : ∃ d ds2, ds = d :: ds2 := by
    cases ds with
    | nil => exact absurd rfl hne
    | cons d ds2 => exact ⟨d, ds2, rfl⟩
  have hd : isdigit d = true := hds d (by simp)
  have hstop : ∀ c, (sign ++ (d :: ds2 ++ rest)).head? = some c → isspace c = false := by
    intro c hc
    rcases hsign with rfl | rfl | rfl
    · simp at hc; subst hc; exact isdigit_not_space hd
    · simp at hc; subst hc; decide
    · simp at hc; subst hc; decide
  refine ⟨?_, ?_, ?_, takeWhile_append_stop _ _ _ hds hrest,
    dropWhile_append_stop _ _ _ hds hrest⟩
  · rw [ht]; exact takeWhile_append_stop _ _ _ hws hstop
  · rw [ht]; exact dropWhile_append_stop _ _ _ hws hstop
  · rcases hsign with rfl | rfl | rfl
    · simpa using readSign_of_digit (ds2 ++ rest) hd
    · rfl
    · rfl

theorem stoi_of_IntPrefix {t ws sign ds rest : List Char} (h : IntPrefix t ws sign ds rest) :
    stoi t =
      if signedValue (decide (sign = ['-'])) ds < INT_MIN ∨
          INT_MAX < signedValue (decide (sign = ['-'])) ds then
        .error Error.out_of_range
      else .ok (signedValue (decide (sign = ['-'])) ds, ws.length + sign.length + ds.length) := by
  obtain ⟨h1, h2, h3, h4, _⟩ := h.computed
  have hne : ds ≠ [] := h.2.2.2.1
  unfold stoi
  simp only [h1, h2, h3, List.drop_left, h4]
  cases ds with
  | nil => exact absurd rfl hne
  | cons d ds2 => simp

theorem IntPrefix.drop {t ws sign ds rest : List Char} (h : IntPrefix t ws sign ds rest) :
    t.drop (ws.length + sign.length + ds.length) = rest ∧
      ¬ t.length < ws.length + sign.length + ds.length := by
  rw [h.1]
  constructor
  · rw [Nat.add_assoc, ← List.drop_drop, List.drop_left]
    rw [← List.drop_drop, List.drop_left, List.drop_left]
  · simp; omega

theorem IntPrefix.of_computed (t : List Char)
    (h : ((t.dropWhile isspace).drop (readSign (t.dropWhile isspace)).2).takeWhile isdigit ≠ []) :
    IntPrefix t (t.takeWhile isspace)
      ((t.dropWhile isspace).take (readSign (t.dropWhile isspace)).2)
      (((t.dropWhile isspace).drop (readSign (t.dropWhile isspace)).2).takeWhile isdigit)
      (((t.dropWhile isspace).drop (readSign (t.dropWhile isspace)).2).dropWhile isdigit) := by
  refine ⟨?_, takeWhile_all _ _, ?_, h, takeWhile_all _ _, dropWhile_head _ _⟩
  · rw [List.takeWhile_append_dropWhile, List.take_append_drop,
      List.takeWhile_append_dropWhile]
  · rcases readSign_cases (t.dropWhile isspace) with ⟨h0, _⟩ | ⟨r, hr, h1⟩ | ⟨r, hr, h1⟩
    · rw [h0]; exact Or.inl rfl
    · rw [h1, hr]; exact Or.inr (Or.inl rfl)
    · rw [h1, hr]; exact Or.inr (Or.inr rfl)

theorem stoi_invalid_iff (t : List Char) :
    stoi t = .error Error.invalid_argument ↔ ¬ ∃ ws sign ds rest, IntPrefix t ws sign ds rest := by
  constructor
  · rintro h ⟨ws, sign, ds, rest, hp⟩
    rw [stoi_of_IntPrefix hp] at h
    split at h <;> cases h
  · intro h
    by_cases hds :
        ((t.dropWhile isspace).drop (readSign (t.dropWhile isspace)).2).takeWhile isdigit = []
    · unfold stoi
      simp only [hds, List.isEmpty_nil, if_true]
    · exact absurd ⟨_, _, _, _, IntPrefix.of_computed t hds⟩ h

theorem stoi_cases (t : List Char) :
    stoi t = .error Error.invalid_argument ∨ stoi t = .error Error.out_of_range ∨
      ∃ v pos, stoi t = .ok (v, pos) := by
  unfold stoi
  simp only
  split
  · exact Or.inl rfl
  · split
    · exact Or.inr (Or.inl rfl)
    · exact Or.inr (Or.inr ⟨_, _, rfl⟩)

namespace TemplateMatch

open MatchAny Template.PartAny

theorem PartTryMatcher_int_ok {t : List Char} {v : Int} {pos : Nat}
    (h : stoi t = .ok (v, pos)) (hlen : ¬ t.length < pos) :
    PartTryMatcher PartInt ⟨t⟩ = .ok (true, MatchInt v, ⟨t.drop pos⟩) := by
  simp [PartTryMatcher, Tape.Get, h, Tape.Shift, hlen]

theorem PartTryMatcher_int_invalid {t : List Char}
    (h : stoi t = .error Error.invalid_argument) :
    PartTryMatcher PartInt ⟨t⟩ = .ok (false, MatchInt 0, ⟨t⟩) := by
  simp [PartTryMatcher, Tape.Get, h]

theorem PartTryMatcher_int_out_of_range {t : List Char}
    (h : stoi t = .error Error.out_of_range) :
    PartTryMatcher PartInt ⟨t⟩ = .error Error.out_of_range := by
  simp [PartTryMatcher, Tape.Get, h]

theorem PartTryMatcher_int_of_IntPrefix {t ws sign ds rest : List Char}
    (h : IntPrefix t ws sign ds rest)
    (hmin : INT_MIN ≤ signedValue (decide (sign = ['-'])) ds)
    (hmax : signedValue (decide (sign = ['-'])) ds ≤ INT_MAX) :
    PartTryMatcher PartInt ⟨t⟩ =
      .ok (true, MatchInt (signedValue (decide (sign = ['-'])) ds), ⟨rest⟩) := by
  have hs := stoi_of_IntPrefix h
  rw [if_neg (by omega)] at hs
  rw [PartTryMatcher_int_ok hs h.drop.2, h.drop.1]

theorem PartTryMatcher_int_true {t : List Char} {m : MatchAny} {tape2 : Tape}
    (h : PartTryMatcher PartInt ⟨t⟩ = .ok (true, m, tape2)) :
    ∃ ws sign ds rest, IntPrefix t ws sign ds rest ∧
      m = MatchInt (signedValue (decide (sign = ['-'])) ds) ∧ tape2 = ⟨rest⟩ ∧
      INT_MIN ≤ signedValue (decide (sign = ['-'])) ds ∧
      signedValue (decide (sign = ['-'])) ds ≤ INT_MAX := by
  rcases stoi_cases t with h1 | h1 | ⟨v, pos, h1⟩
  · rw [PartTryMatcher_int_invalid h1] at h
    cases h
  · rw [PartTryMatcher_int_out_of_range h1] at h
    cases h
  · have hex : ∃ ws sign ds rest, IntPrefix t ws sign ds rest := by
      by_contra hno
      rw [(stoi_invalid_iff t).mpr hno] at h1
      cases h1
    obtain ⟨ws, sign, ds, rest, hp⟩ := hex
    have hs := stoi_of_IntPrefix hp
    by_cases hr : signedValue (decide (sign = ['-'])) ds < INT_MIN ∨
        INT_MAX < signedValue (decide (sign = ['-'])) ds
    · rw [if_pos hr, h1] at hs
      cases hs
    · rw [not_or] at hr
      rw [PartTryMatcher_int_of_IntPrefix hp (by omega) (by omega)] at h
      cases h
      exact ⟨ws, sign, ds, rest, hp, rfl, rfl, by omega, by omega⟩

/-- C8, amended: on a `PartInt`, when the remaining text `t` is white space,
then an optional sign, then a longest run of at least one digit whose signed
value fits an `int`, `PartTryMatcher` succeeds, consumes exactly that prefix
(the white space included) and produces `MatchInt` of the value; it succeeds on
no other text; and when `t` has no such prefix it returns no match and leaves
the tape as it was.  The template `%d ms` matches `12 ms` with `MatchInt(12)`
and does not match `x ms`. -/
theorem PartInt_match :
    (∀ t ws sign ds rest : List Char, IntPrefix t ws sign ds rest →
      INT_MIN ≤ signedValue (decide (sign = ['-'])) ds →
      signedValue (decide (sign = ['-'])) ds ≤ INT_MAX →
      PartTryMatcher PartInt ⟨t⟩ =
        .ok (true, MatchInt (signedValue (decide (sign = ['-'])) ds), ⟨rest⟩) ∧
      rest = t.drop (ws.length + sign.length + ds.length)) ∧
    (∀ (t : List Char) (m : MatchAny) (tape2 : Tape),
      PartTryMatcher PartInt ⟨t⟩ = .ok (true, m, tape2) →
      ∃ ws sign ds rest, IntPrefix t ws sign ds rest ∧
        m = MatchInt (signedValue (decide (sign = ['-'])) ds) ∧ tape2 = ⟨rest⟩) ∧
    (∀ t : List Char, (¬ ∃ ws sign ds rest, IntPrefix t ws sign ds rest) →
      PartTryMatcher PartInt ⟨t⟩ = .ok (false, MatchInt 0, ⟨t⟩)) ∧
    (Template.Parse "%d ms".toList).bind (fun T => TryMatch T ⟨"12 ms".toList⟩) =
      .ok (some ⟨[MatchConst, MatchInt 12, MatchConst]⟩, ⟨[]⟩) ∧
    (Template.Parse "%d ms".toList).bind (fun T => TryMatch T ⟨"x ms".toList⟩) =
      .ok (none, ⟨"x ms".toList⟩) := by
  refine ⟨?_, ?_, ?_, by decide, by decide⟩
  · intro t ws sign ds rest hp hmin hmax
    exact ⟨PartTryMatcher_int_of_IntPrefix hp hmin hmax, hp.drop.1.symm⟩
  · intro t m tape2 h
    obtain ⟨ws, sign, ds, rest, hp, hm, ht, _, _⟩ := PartTryMatcher_int_true h
    exact ⟨ws, sign, ds, rest, hp, hm, ht⟩
  · intro t hno
    exact PartTryMatcher_int_invalid ((stoi_invalid_iff t).mpr hno)

/-- An instance of `PartInt_match`: on the text ` -12 ms` the integer hole
consumes the space, the sign and the digits and yields `MatchInt(-12)`. -/
theorem PartInt_match_witness :
    PartTryMatcher PartInt ⟨" -12 ms".toList⟩ = .ok (true, MatchInt (-12), ⟨" ms".toList⟩) :=
  (PartInt_match.1 " -12 ms".toList [' '] ['-'] ['1', '2'] " ms".toList
    ⟨by decide, by decide, by decide, by decide, by decide, by decide⟩
    (by decide) (by decide)).1

/-- C8 as stated fails: the text ` 12` does not begin with an optional sign
followed by a digit, yet the integer hole matches it, consuming three
characters. -/
theorem PartInt_match_counterexample :
    beginsWithSignedDecimal " 12".toList = false ∧
      PartTryMatcher PartInt ⟨" 12".toList⟩ = .ok (true, MatchInt 12, ⟨[]⟩) := by
  decide

end TemplateMatch

/-! ## Matching and materialization -/

namespace TemplateMatch

open MatchAny Template.PartAny

theorem PartTryMatcher_materialize {part : Template.PartAny} {tape tape2 : Tape}
    {m : MatchAny} (h : PartTryMatcher part tape = .ok (true, m, tape2))
    (hint : ∀ v, m = MatchInt v → intToString v ++ tape2.input = tape.input) :
    ∃ s, MatchedPartMaterilizer part m = .ok s ∧ s ++ tape2.input = tape.input := by
  obtain ⟨t⟩ := tape
  cases part with
  | PartConst s =>
    rw [PartTryMatcher_const] at h
    by_cases hp : s <+: t
    · rw [if_pos hp] at h
      cases h
      refine ⟨s, rfl, ?_⟩
      obtain ⟨r, rfl⟩ := hp
      simp
    · rw [if_neg hp] at h
      cases h
  | PartInt =>
    obtain ⟨ws, sign, ds, rest, _, hm, _, _, _⟩ := PartTryMatcher_int_true h
    subst hm
    exact ⟨_, rfl, hint _ rfl⟩
  | PartString =>
    rw [PartTryMatcher_string] at h
    injection h with h
    injection h with _ h
    injection h with hm ht
    subst hm ht
    exact ⟨_, rfl, List.takeWhile_append_dropWhile _ t⟩

theorem TryMatchLoop_materialize (parts : List Template.PartAny) :
    ∀ (tape : Tape) (acc : List MatchAny) (M : TemplateMatch) (R : Tape),
      TryMatchLoop parts tape acc = .ok (some M, R) →
      intHolesCanonical parts tape = true →
      ∃ ms text, M.parts = acc ++ ms ∧ ms.length = parts.length ∧
        text ++ R.input = tape.input ∧
        ∀ (tpl : Template) (i : Nat) (result : List Char),
          (∀ j, j < parts.length → tpl.parts.get? (i + j) = parts.get? j) →
          MaterializeLoop tpl i ms result = .ok (result ++ text) := by
  induction parts with
  | nil =>
    intro tape acc M R h _
    simp only [TryMatchLoop] at h
    cases h
    exact ⟨[], [], by simp, rfl, rfl, fun tpl i result _ => by simp [MaterializeLoop]⟩
  | cons part rest ih =>
    intro tape acc M R h hcan
    simp only [TryMatchLoop] at h
    cases hp : PartTryMatcher part tape with
    | error e => rw [hp] at h; cases h
    | ok r =>
      obtain ⟨b, m, tape2⟩ := r
      rw [hp] at h
      cases b with
      | false => cases h
      | true =>
        simp only at h
        simp only [intHolesCanonical, hp, Bool.and_eq_true] at hcan
        obtain ⟨hcan1, hcan2⟩ := hcan
        obtain ⟨ms, text, hM, hlen, htext, hmat⟩ := ih tape2 (acc ++ [m]) M R h hcan2
        have hint : ∀ v, m = MatchInt v → intToString v ++ tape2.input = tape.input := by
          intro v hv
          subst hv
          simpa using hcan1
        obtain ⟨s, hs, hst⟩ := PartTryMatcher_materialize hp hint
        refine ⟨m :: ms, s ++ text, by simp [hM], by simp [hlen], ?_, ?_⟩
        · rw [List.append_assoc, htext, hst]
        · intro tpl i result hget
          have h0 : tpl.parts.get? i = some part := by
            have := hget 0 (by simp)
            simpa using this
          simp only [MaterializeLoop, h0, hs]
          rw [hmat tpl (i + 1) (result ++ s)]
          · simp
          · intro j hj
            have := hget (j + 1) (by simp; omega)
            simpa [Nat.add_assoc, Nat.add_comm 1 j] using this

theorem TryMatch_materialize_remainder {T : Template} {L : List Char} {M : TemplateMatch}
    {R : Tape} (h : TryMatch T ⟨L⟩ = .ok (some M, R))
    (hcan : intHolesCanonical T.parts ⟨L⟩ = true) :
    ∃ text, M.Materialize T = .ok text ∧ text ++ R.input = L ∧
      M.parts.length = T.parts.length := by
  obtain ⟨ms, text, hM, hlen, htext, hmat⟩ := TryMatchLoop_materialize T.parts ⟨L⟩ [] M R h hcan
  refine ⟨text, ?_, htext, by simp [hM, hlen]⟩
  unfold Materialize
  rw [hM]
  simpa using hmat T 0 [] (fun j _ => by simp)

/-- C1, amended: if `TryMatch(T, L)` succeeds with match `M` and every integer
hole consumed the canonical decimal text of its value, then `M.Materialize(T)`
followed by the input that the match left unconsumed equals `L`; when the match
consumed the whole line, `M.Materialize(T)` equals `L`. -/
theorem TryMatch_Materialize_roundtrip (T : Template) (L : List Char) (M : TemplateMatch)
    (R : Tape) (h : TryMatch T ⟨L⟩ = .ok (some M, R))
    (hcan : intHolesCanonical T.parts ⟨L⟩ = true) :
    (∃ text, M.Materialize T = .ok text ∧ text ++ R.input = L) ∧
      (R.input = [] → M.Materialize T = .ok L) := by
  obtain ⟨text, h1, h2, _⟩ := TryMatch_materialize_remainder h hcan
  refine ⟨⟨text, h1, h2⟩, fun hR => ?_⟩
  rw [hR, List.append_nil] at h2
  rw [h1, h2]

/-- An instance of `TryMatch_Materialize_roundtrip`: the template `%d ms took %s`
on the line `12 ms took long`. -/
theorem TryMatch_Materialize_roundtrip_witness :
    Template.Parse "%d ms took %s".toList =
        .ok ⟨[PartConst [], PartInt, PartConst " ms took ".toList, PartString, PartConst []]⟩ ∧
      Materialize ⟨[MatchConst, MatchInt 12, MatchConst, MatchString "long".toList, MatchConst]⟩
        ⟨[PartConst [], PartInt, PartConst " ms took ".toList, PartString, PartConst []]⟩ =
        .ok "12 ms took long".toList :=
  ⟨by decide,
    (TryMatch_Materialize_roundtrip
      ⟨[PartConst [], PartInt, PartConst " ms took ".toList, PartString, PartConst []]⟩
      "12 ms took long".toList
      ⟨[MatchConst, MatchInt 12, MatchConst, MatchString "long".toList, MatchConst]⟩ ⟨[]⟩
      (by decide) (by decide)).2 rfl⟩

/-- C1 as stated fails: the template `%s` matches the line `abc def` and
materializes to `abc`, and the template `%d` matches the line `007` and
materializes to `7`. -/
theorem TryMatch_Materialize_counterexample :
    (Template.Parse "%s".toList = .ok ⟨[PartConst [], PartString, PartConst []]⟩ ∧
      TryMatch ⟨[PartConst [], PartString, PartConst []]⟩ ⟨"abc def".toList⟩ =
        .ok (some ⟨[MatchConst, MatchString "abc".toList, MatchConst]⟩, ⟨" def".toList⟩) ∧
      Materialize ⟨[MatchConst, MatchString "abc".toList, MatchConst]⟩
        ⟨[PartConst [], PartString, PartConst []]⟩ = .ok "abc".toList ∧
      "abc".toList ≠ "abc def".toList) ∧
    (Template.Parse "%d".toList = .ok ⟨[PartConst [], PartInt, PartConst []]⟩ ∧
      TryMatch ⟨[PartConst [], PartInt, PartConst []]⟩ ⟨"007".toList⟩ =
        .ok (some ⟨[MatchConst, MatchInt 7, MatchConst]⟩, ⟨[]⟩) ∧
      Materialize ⟨[MatchConst, MatchInt 7, MatchConst]⟩
        ⟨[PartConst [], PartInt, PartConst []]⟩ = .ok "7".toList ∧
      "7".toList ≠ "007".toList) := by
  decide

end TemplateMatch

/-! ## Decimal text -/

theorem digitChar_isdigit (d : Nat) (h : d < 10) :
    isdigit (Nat.digitChar d) = true ∧ (Nat.digitChar d).toNat - 48 = d := by
  interval_cases d <;> decide

theorem digitsValueFrom_append (acc : Nat) (a b : List Char) :
    digitsValueFrom acc (a ++ b) = digitsValueFrom (digitsValueFrom acc a) b := by
  simp [digitsValueFrom, List.foldl_append]

theorem toDigitsCore_spec : ∀ (fuel n : Nat) (ds : List Char), n < fuel →
    ∃ pre, Nat.toDigitsCore 10 fuel n ds = pre ++ ds ∧ pre ≠ [] ∧
      (∀ c ∈ pre, isdigit c = true) ∧
      ∀ acc, digitsValueFrom acc pre = acc * 10 ^ pre.length + n := by
  intro fuel
  induction fuel with
  | zero => intro n ds h; omega
  | succ fuel ih =>
    intro n ds h
    have hd := digitChar_isdigit (n % 10) (Nat.mod_lt _ (by decide))
    by_cases h0 : n / 10 = 0
    · refine ⟨[Nat.digitChar (n % 10)], ?_, by simp, ?_, ?_⟩
      · simp [Nat.toDigitsCore, h0]
      · intro c hc
        simp at hc
        rw [hc]; exact hd.1
      · intro acc
        have hn : n % 10 = n := Nat.mod_eq_of_lt (by omega)
        have h2 := hd.2
        simp only [digitsValueFrom, List.foldl_cons, List.foldl_nil, h2,
          List.length_singleton, Nat.pow_one]
        omega
    · have hlt : n / 10 < fuel := by omega
      obtain ⟨pre, hpre, hne, hall, hval⟩ := ih (n / 10) (Nat.digitChar (n % 10) :: ds) hlt
      refine ⟨pre ++ [Nat.digitChar (n % 10)], ?_, by simp, ?_, ?_⟩
      · simp [Nat.toDigitsCore, h0, hpre]
      · intro c hc
        rw [List.mem_append] at hc
        rcases hc with hc | hc
        · exact hall c hc
        · simp at hc
          rw [hc]; exact hd.1
      · intro acc
        rw [digitsValueFrom_append, hval acc]
        simp only [digitsValueFrom, List.foldl_cons, List.foldl_nil, hd.2,
          List.length_append, List.length_singleton]
        rw [Nat.pow_succ]
        have := Nat.div_add_mod n 10
        nlinarith [Nat.div_add_mod n 10]

theorem natToString_spec (n : Nat) :
    natToString n ≠ [] ∧ (∀ c ∈ natToString n, isdigit c = true) ∧
      digitsValue (natToString n) = n := by
  obtain ⟨pre, hpre, hne, hall, hval⟩ := toDigitsCore_spec (n + 1) n [] (Nat.lt_succ_self n)
  have : natToString n = pre := by
    simp [natToString, Nat.toDigits, hpre]
  rw [this]
  refine ⟨hne, hall, ?_⟩
  have := hval 0
  simpa [digitsValue] using this

theorem intToString_IntPrefix (v : Int) (rest : List Char)
    (hrest : ∀ c, rest.head? = some c → isdigit c = false) :
    IntPrefix (intToString v ++ rest) [] (if v < 0 then ['-'] else [])
        (natToString v.natAbs) rest ∧
      signedValue (decide ((if v < 0 then ['-'] else []) = ['-'])) (natToString v.natAbs) = v := by
  obtain ⟨hne, hall, hval⟩ := natToString_spec v.natAbs
  by_cases hv : v < 0
  · refine ⟨⟨?_, by simp, by simp [hv], hne, hall, hrest⟩, ?_⟩
    · simp [intToString, hv]
    · simp only [hv, if_true, decide_True, signedValue, hval]
      omega
  · refine ⟨⟨?_, by simp, by simp [hv], hne, hall, hrest⟩, ?_⟩
    · have : v.toNat = v.natAbs := by omega
      simp [intToString, hv, this]
    · simp only [hv, if_false, signedValue, hval]
      have : ¬ (([] : List Char) = ['-']) := by simp
      simp only [this, decide_False]
      simp
      omega

/-! ## Stream extraction of decimal text -/

namespace IStream

theorem sentry_ofInput (t : List Char) (h : t.dropWhile isspace = t) (hne : t ≠ []) :
    (ofInput t).sentry = (ofInput t, true) := by
  cases t with
  | nil => exact absurd rfl hne
  | cons x r =>
    unfold sentry ofInput good
    simp only [Bool.not_false, Bool.and_self, if_true, h]

theorem extractInt_of_IntPrefix {t sign ds rest : List Char}
    (h : IntPrefix t [] sign ds rest)
    (hmin : INT_MIN ≤ signedValue (decide (sign = ['-'])) ds)
    (hmax : signedValue (decide (sign = ['-'])) ds ≤ INT_MAX)
    (hne : rest ≠ []) (u : Int) :
    (ofInput t).extractInt u =
      (ofInput rest, signedValue (decide (sign = ['-'])) ds) := by
  obtain ⟨_, h2, h3, h4, h5⟩ := h.computed
  have ht : t = sign ++ (ds ++ rest) := by simpa using h.1
  have hds : ds ≠ [] := h.2.2.2.1
  have htne : t ≠ [] := by
    rw [ht]
    cases ds with
    | nil => exact absurd rfl hds
    | cons d ds2 => simp
  have hsentry := sentry_ofInput t (by rw [h2, ← ht]) htne
  unfold extractInt
  rw [hsentry]
  simp only [ofInput]
  rw [ht, h3]
  simp only [List.drop_left, h4, h5]
  have h6 : ds.isEmpty = false := by
    cases ds with
    | nil => exact absurd rfl hds
    | cons d ds2 => rfl
  have h7 : rest.isEmpty = false := by
    cases rest with
    | nil => exact absurd rfl hne
    | cons d ds2 => rfl
  have h8 : ¬ signedValue (decide (sign = ['-'])) ds < INT_MIN := by omega
  have h9 : ¬ INT_MAX < signedValue (decide (sign = ['-'])) ds := by omega
  simp [h6, h7, h8, h9]

theorem extractInt_intToString (v : Int) (hmin : INT_MIN ≤ v) (hmax : v ≤ INT_MAX)
    (rest : List Char) (hne : rest ≠ [])
    (hrest : ∀ c, rest.head? = some c → isdigit c = false) (u : Int) :
    (ofInput (intToString v ++ rest)).extractInt u = (ofInput rest, v) := by
  obtain ⟨hp, hv⟩ := intToString_IntPrefix v rest hrest
  have := extractInt_of_IntPrefix hp (by rw [hv]; exact hmin) (by rw [hv]; exact hmax) hne u
  rw [hv] at this
  exact this

theorem extractSize_natToString (n : Nat) (hn : n ≤ SIZE_MAX)
    (rest : List Char) (hne : rest ≠ [])
    (hrest : ∀ c, rest.head? = some c → isdigit c = false) (u : Nat) :
    (ofInput (natToString n ++ rest)).extractSize u = (ofInput rest, n) := by
  obtain ⟨hds, hall, hval⟩ := natToString_spec n
  have hp : IntPrefix (natToString n ++ rest) [] [] (natToString n) rest :=
    ⟨by simp, by simp, Or.inl rfl, hds, hall, hrest⟩
  obtain ⟨_, h2, h3, h4, h5⟩ := hp.computed
  have htne : natToString n ++ rest ≠ [] := by
    cases hr : rest with
    | nil => exact absurd hr hne
    | cons d ds2 => simp
  have hsentry := sentry_ofInput (natToString n ++ rest) (by simpa using h2) htne
  unfold extractSize
  rw [hsentry]
  simp only [ofInput]
  have h3b : readSign (natToString n ++ rest) = (false, 0) := by simpa using h3
  rw [h3b]
  simp only [List.drop_zero, h4, h5, hval]
  have h6 : (natToString n).isEmpty = false := by
    cases hd : natToString n with
    | nil => exact absurd hd hds
    | cons d ds2 => rfl
  have h7 : rest.isEmpty = false := by
    cases hr : rest with
    | nil => exact absurd hr hne
    | cons d ds2 => rfl
  have h8 : ¬ SIZE_MAX < n := by omega
  simp [h6, h7, h8]

theorem get_ofInput_cons (x : Char) (rest : List Char) (c : Char) :
    (ofInput (x :: rest)).get c = (ofInput rest, x) := by
  simp [get, ofInput, good]

theorem read_ofInput_append (s rest : List Char) :
    (ofInput (s ++ rest)).read s.length = (ofInput rest, s) := by
  simp [read, ofInput, good]

end IStream

/-! ## Serialization round trip -/

namespace TemplateMatch

open MatchAny

theorem foldl_MatchedPartWriter (ps : List MatchAny) :
    ∀ out : List Char,
      ps.foldl MatchedPartWriter out = out ++ ps.foldl MatchedPartWriter [] := by
  induction ps with
  | nil => intro out; simp
  | cons m ps ih =>
    intro out
    simp only [List.foldl_cons]
    rw [ih (MatchedPartWriter out m), ih (MatchedPartWriter [] m)]
    cases m <;> simp [MatchedPartWriter]

theorem Write_eq_append (M : TemplateMatch) (out : List Char) :
    M.Write out = out ++ M.Write [] := by
  simp only [Write]
  rw [foldl_MatchedPartWriter M.parts out]
  simp

theorem Write_nil : Write ⟨[]⟩ [] = ['\n'] := rfl

theorem Write_cons (m : MatchAny) (ps : List MatchAny) :
    Write ⟨m :: ps⟩ [] = MatchedPartWriter [] m ++ Write ⟨ps⟩ [] := by
  simp only [Write, List.foldl_cons]
  rw [foldl_MatchedPartWriter ps (MatchedPartWriter [] m)]
  simp

theorem Write_head (M : TemplateMatch) :
    ∃ c tl, M.Write [] = c :: tl ∧ isdigit c = false := by
  obtain ⟨ps⟩ := M
  cases ps with
  | nil => exact ⟨'\n', [], rfl, by decide⟩
  | cons m ps =>
    rw [Write_cons]
    cases m with
    | MatchConst => exact ⟨'C', _, rfl, by decide⟩
    | MatchInt v =>
      exact ⟨'I', intToString v ++ '|' :: Write ⟨ps⟩ [], by simp [MatchedPartWriter], by decide⟩
    | MatchString s =>
      exact ⟨'S', natToString s.length ++ ':' :: (s ++ Write ⟨ps⟩ []),
        by simp [MatchedPartWriter], by decide⟩

theorem ReadLoop_Write (u : Uninit) (ps : List MatchAny) :
    ∀ (acc : List MatchAny) (c : Char) (rest : List Char) (fuel : Nat),
      ps.length < fuel → (∀ m ∈ ps, m.representable = true) →
      ReadLoop u fuel (IStream.ofInput (Write ⟨ps⟩ [] ++ rest)) c acc =
        some (.ok (⟨acc ++ ps⟩, IStream.ofInput rest)) := by
  induction ps with
  | nil =>
    intro acc c rest fuel hfuel _
    obtain ⟨f, rfl⟩ : ∃ f, fuel = f + 1 := ⟨fuel - 1, by omega⟩
    rw [Write_nil]
    simp [ReadLoop, IStream.get_ofInput_cons]
  | cons m ps ih =>
    intro acc c rest fuel hfuel hrep
    obtain ⟨f, rfl⟩ : ∃ f, fuel = f + 1 := ⟨fuel - 1, by omega⟩
    have hf : ps.length < f := by simp at hfuel; omega
    have hrep2 : ∀ m2 ∈ ps, m2.representable = true :=
      fun m2 hm2 => hrep m2 (List.mem_cons_of_mem _ hm2)
    have hm := hrep m (by simp)
    rw [Write_cons]
    cases m with
    | MatchConst =>
      have := ih (acc ++ [MatchConst]) 'C' rest f hf hrep2
      simp only [MatchedPartWriter, List.nil_append, List.singleton_append, List.cons_append,
        ReadLoop, IStream.get_ofInput_cons]
      simpa using this
    | MatchInt v =>
      simp only [MatchAny.representable, decide_eq_true_eq] at hm
      have hx := IStream.extractInt_intToString v hm.1 hm.2
        ('|' :: (Write ⟨ps⟩ [] ++ rest)) (by simp)
        (fun c hc => by simp at hc; subst hc; decide) u.val
      have := ih (acc ++ [MatchInt v]) '|' rest f hf hrep2
      simp only [MatchedPartWriter, List.nil_append, List.singleton_append, List.cons_append,
        List.append_assoc, ReadLoop, IStream.get_ofInput_cons]
      rw [hx]
      simp only [IStream.get_ofInput_cons]
      simpa using this
    | MatchString s =>
      simp only [MatchAny.representable, decide_eq_true_eq] at hm
      have hx := IStream.extractSize_natToString s.length hm
        (':' :: (s ++ (Write ⟨ps⟩ [] ++ rest))) (by simp)
        (fun c hc => by simp at hc; subst hc; decide) u.len
      have := ih (acc ++ [MatchString s]) ':' rest f hf hrep2
      simp only [MatchedPartWriter, List.nil_append, List.singleton_append, List.cons_append,
        List.append_assoc, ReadLoop, IStream.get_ofInput_cons]
      rw [hx]
      simp only [IStream.get_ofInput_cons, IStream.read_ofInput_append]
      simpa using this

/-- C2: for every match whose integers are 32-bit `int`s and whose strings have a
`size_t` length, strings with a newline, `|`, `:` or digits included,
`TemplateMatch::Read` on the bytes that `Write` produced, followed by any
further input, returns the same match part for part and leaves the stream, in
the good state, exactly at that further input.  One loop iteration per part and
one for the newline are enough. -/
theorem Read_Write_roundtrip (M : TemplateMatch)
    (hrep : ∀ m ∈ M.parts, m.representable = true)
    (rest : List Char) (u : Uninit) (fuel : Nat) (hfuel : M.parts.length < fuel) :
    Read u fuel (IStream.ofInput (M.Write [] ++ rest)) =
      some (.ok (M, IStream.ofInput rest)) := by
  have := ReadLoop_Write u M.parts [] u.c rest fuel hfuel hrep
  simpa [Read] using this

/-- An instance of `Read_Write_roundtrip`: a match with a negative integer and
a string that holds a newline, `|`, `:` and a digit, followed by more input. -/
theorem Read_Write_roundtrip_witness :
    Write ⟨[MatchConst, MatchInt (-5), MatchString "a\n|:1".toList, MatchConst]⟩ [] =
        "CI-5|S5:a\n|:1C\n".toList ∧
      Read ⟨'x', 0, 0⟩ 5 (IStream.ofInput
        (Write ⟨[MatchConst, MatchInt (-5), MatchString "a\n|:1".toList, MatchConst]⟩ [] ++
          "7C\n".toList)) =
        some (.ok (⟨[MatchConst, MatchInt (-5), MatchString "a\n|:1".toList, MatchConst]⟩,
          IStream.ofInput "7C\n".toList)) :=
  ⟨by decide,
    Read_Write_roundtrip
      ⟨[MatchConst, MatchInt (-5), MatchString "a\n|:1".toList, MatchConst]⟩
      (by decide) "7C\n".toList ⟨'x', 0, 0⟩ 5 (by decide)⟩

end TemplateMatch

/-! ## The encoder -/

open TemplateMatch in
theorem MatchAndWriteEncodedLoop_ok (line : List Char) (tpls : List Template) :
    ∀ (i : Nat) (out out2 : List Char),
      MatchAndWriteEncodedLoop line i tpls out = .ok out2 →
      (out2 = out ∧ ∀ T ∈ tpls, ∃ R, TryMatch T ⟨line⟩ = .ok (none, R)) ∨
      ∃ k T M R, tpls.get? k = some T ∧ TryMatch T ⟨line⟩ = .ok (some M, R) ∧
        (∀ j T2, j < k → tpls.get? j = some T2 → ∃ R2, TryMatch T2 ⟨line⟩ = .ok (none, R2)) ∧
        out2 = out ++ (natToString (i + k) ++ M.Write []) := by
  induction tpls with
  | nil =>
    intro i out out2 h
    simp only [MatchAndWriteEncodedLoop] at h
    cases h
    exact Or.inl ⟨rfl, fun T hT => by simp at hT⟩
  | cons T rest ih =>
    intro i out out2 h
    simp only [MatchAndWriteEncodedLoop] at h
    cases hT : TryMatch T ⟨line⟩ with
    | error e => rw [hT] at h; cases h
    | ok r =>
      obtain ⟨om, R⟩ := r
      rw [hT] at h
      cases om with
      | some M =>
        simp only at h
        cases h
        refine Or.inr ⟨0, T, M, R, rfl, hT, fun j T2 hj _ => by omega, ?_⟩
        rw [Write_eq_append M (out ++ natToString i)]
        simp
      | none =>
        simp only at h
        rcases ih (i + 1) out out2 h with ⟨h1, h2⟩ | ⟨k, T3, M, R3, hk, hm, hbefore, hout⟩
        · refine Or.inl ⟨h1, fun T2 hT2 => ?_⟩
          rcases List.mem_cons.mp hT2 with rfl | hmem
          · exact ⟨R, hT⟩
          · exact h2 T2 hmem
        · refine Or.inr ⟨k + 1, T3, M, R3, by simpa using hk, hm, ?_, ?_⟩
          · intro j T2 hj hget
            cases j with
            | zero =>
              simp at hget
              subst hget
              exact ⟨R, hT⟩
            | succ j => exact hbefore j T2 (by omega) (by simpa using hget)
          · rw [hout]
            have : i + 1 + k = i + (k + 1) := by omega
            rw [this]

open TemplateMatch in
theorem MatchAndWriteEncodedLoop_first (line : List Char) (tpls : List Template) :
    ∀ (i k : Nat) (out : List Char) (T : Template) (M : TemplateMatch) (R : Tape),
      tpls.get? k = some T → TryMatch T ⟨line⟩ = .ok (some M, R) →
      (∀ j T2, j < k → tpls.get? j = some T2 → ∃ R2, TryMatch T2 ⟨line⟩ = .ok (none, R2)) →
      MatchAndWriteEncodedLoop line i tpls out =
        .ok (out ++ (natToString (i + k) ++ M.Write [])) := by
  induction tpls with
  | nil => intro i k out T M R hk; simp at hk
  | cons T0 rest ih =>
    intro i k out T M R hk hm hbefore
    cases k with
    | zero =>
      simp at hk
      subst hk
      simp only [MatchAndWriteEncodedLoop, hm]
      rw [Write_eq_append M (out ++ natToString i)]
      simp
    | succ k =>
      obtain ⟨R0, h0⟩ := hbefore 0 T0 (by omega) rfl
      simp only [MatchAndWriteEncodedLoop, h0]
      rw [ih (i + 1) k out T M R (by simpa using hk) hm
        (fun j T2 hj hget => hbefore (j + 1) T2 (by omega) (by simpa using hget))]
      have : i + 1 + k = i + (k + 1) := by omega
      rw [this]

theorem MatchAndWriteEncodedLoop_none (line : List Char) (tpls : List Template) :
    ∀ (i : Nat) (out : List Char),
      (∀ T ∈ tpls, ∃ R, TemplateMatch.TryMatch T ⟨line⟩ = .ok (none, R)) →
      MatchAndWriteEncodedLoop line i tpls out = .ok out := by
  induction tpls with
  | nil => intro i out _; rfl
  | cons T0 rest ih =>
    intro i out h
    obtain ⟨R0, h0⟩ := h T0 (by simp)
    simp only [MatchAndWriteEncodedLoop, h0]
    exact ih (i + 1) out (fun T hT => h T (List.mem_cons_of_mem _ hT))

open TemplateMatch TemplateMatch.MatchAny Template.PartAny in
/-- C3, the failing input: with the templates `%d` and `%s` the line
`99999999999` is matched by the second template, yet `MatchAndWriteEncoded`
writes no record: `std::stoi` throws `std::out_of_range` while the first
template is tried, and the exception leaves the function.  On the example of
the claim, templates `%s` and `GET %s` on `GET /x`, the record is index 0 with
the hole bound to `GET`. -/
theorem MatchAndWriteEncoded_out_of_range :
    Template.Parse "%d".toList = .ok ⟨[PartConst [], PartInt, PartConst []]⟩ ∧
    Template.Parse "%s".toList = .ok ⟨[PartConst [], PartString, PartConst []]⟩ ∧
    TryMatch ⟨[PartConst [], PartString, PartConst []]⟩ ⟨"99999999999".toList⟩ =
      .ok (some ⟨[MatchConst, MatchString "99999999999".toList, MatchConst]⟩, ⟨[]⟩) ∧
    MatchAndWriteEncoded "99999999999".toList []
      [⟨[PartConst [], PartInt, PartConst []]⟩, ⟨[PartConst [], PartString, PartConst []]⟩] =
      .error Error.out_of_range ∧
    Template.Parse "GET %s".toList = .ok ⟨[PartConst "GET ".toList, PartString, PartConst []]⟩ ∧
    MatchAndWriteEncoded "GET /x".toList []
      [⟨[PartConst [], PartString, PartConst []]⟩,
        ⟨[PartConst "GET ".toList, PartString, PartConst []]⟩] =
      .ok "0CS3:GETC\n".toList := by
  decide

open TemplateMatch in
/-- C4: for every index `i` of type `size_t` and every match `M`, extracting an
unsigned decimal from the bytes `<decimal i><M.Write output>` yields `i` and
leaves the stream, not failed, at the output of `Write`, on which
`TemplateMatch::Read` returns `M`; the first byte of the output of `Write` is
never a digit, and so the byte after the index digits of any record that
`MatchAndWriteEncoded` writes is not a digit. -/
theorem index_then_Read (i : Nat) (hi : i ≤ SIZE_MAX) (M : TemplateMatch)
    (hrep : ∀ m ∈ M.parts, m.representable = true) (rest : List Char)
    (idx0 : Nat) (u : Uninit) (fuel : Nat) (hfuel : M.parts.length < fuel) :
    (IStream.ofInput (natToString i ++ (M.Write [] ++ rest))).extractSize idx0 =
      (IStream.ofInput (M.Write [] ++ rest), i) ∧
    (IStream.ofInput (M.Write [] ++ rest)).toBool = true ∧
    Read u fuel (IStream.ofInput (M.Write [] ++ rest)) =
      some (.ok (M, IStream.ofInput rest)) ∧
    (∃ c tl, M.Write [] = c :: tl ∧ isdigit c = false) ∧
    (∀ (line out : List Char) (tpls : List Template) (out2 : List Char),
      MatchAndWriteEncoded line out tpls = .ok out2 →
      out2 = out ∨ ∃ (k : Nat) (M2 : TemplateMatch) (c : Char) (tl : List Char),
        out2 = out ++ (natToString k ++ M2.Write []) ∧ M2.Write [] = c :: tl ∧
          isdigit c = false) := by
  obtain ⟨c, tl, hW, hc⟩ := Write_head M
  refine ⟨?_, rfl, ?_, ⟨c, tl, hW, hc⟩, ?_⟩
  · apply IStream.extractSize_natToString i hi
    · rw [hW]; simp
    · intro d hd
      rw [hW] at hd
      simp at hd
      subst hd
      exact hc
  · have := ReadLoop_Write u M.parts [] u.c rest fuel hfuel hrep
    simpa [Read] using this
  · intro line out tpls out2 h
    rcases MatchAndWriteEncodedLoop_ok line tpls 0 out out2 h with ⟨h1, _⟩ | ⟨k, T, M2, R, _, _, _, hout⟩
    · exact Or.inl h1
    · obtain ⟨c2, tl2, hW2, hc2⟩ := Write_head M2
      exact Or.inr ⟨0 + k, M2, c2, tl2, hout, hW2, hc2⟩

open TemplateMatch TemplateMatch.MatchAny in
/-- An instance of `index_then_Read`: the record `12CI-5|S2:ab` and a newline. -/
theorem index_then_Read_witness :
    natToString 12 ++ (Write ⟨[MatchConst, MatchInt (-5), MatchString "ab".toList]⟩ [] ++ []) =
        "12CI-5|S2:ab\n".toList ∧
      (IStream.ofInput (natToString 12 ++
          (Write ⟨[MatchConst, MatchInt (-5), MatchString "ab".toList]⟩ [] ++ []))).extractSize 0 =
        (IStream.ofInput (Write ⟨[MatchConst, MatchInt (-5), MatchString "ab".toList]⟩ [] ++ []),
          12) ∧
      Read ⟨'x', 0, 0⟩ 4 (IStream.ofInput
          (Write ⟨[MatchConst, MatchInt (-5), MatchString "ab".toList]⟩ [] ++ [])) =
        some (.ok (⟨[MatchConst, MatchInt (-5), MatchString "ab".toList]⟩, IStream.ofInput [])) :=
  have h := index_then_Read 12 (by decide)
    ⟨[MatchConst, MatchInt (-5), MatchString "ab".toList]⟩ (by decide) [] 0 ⟨'x', 0, 0⟩ 4
    (by decide)
  ⟨by decide, h.1, h.2.2.1⟩

open TemplateMatch TemplateMatch.MatchAny Template.PartAny in
/-- C7, the failing input: with the template `a%s`, three parts, the record `C`
and a newline reads as a match of one part, and `Materialize` returns the
string `a` for them although the two sizes differ: the `std::runtime_error` of
the size check is built but never thrown. -/
theorem Materialize_size_mismatch :
    Template.Parse "a%s".toList = .ok ⟨[PartConst ['a'], PartString, PartConst []]⟩ ∧
    Read ⟨'x', 0, 0⟩ 2 (IStream.ofInput "C\n".toList) =
      some (.ok (⟨[MatchConst]⟩, IStream.ofInput [])) ∧
    (⟨[MatchConst]⟩ : TemplateMatch).parts.length ≠
      (⟨[PartConst ['a'], PartString, PartConst []]⟩ : Template).parts.length ∧
    Materialize ⟨[MatchConst]⟩ ⟨[PartConst ['a'], PartString, PartConst []]⟩ = .ok ['a'] := by
  decide

/-! ## The shape of matches -/

theorem stoi_ok_IntPrefix {t : List Char} {v : Int} {pos : Nat} (h : stoi t = .ok (v, pos)) :
    ∃ ws sign ds rest, IntPrefix t ws sign ds rest ∧
      v = signedValue (decide (sign = ['-'])) ds ∧
      pos = ws.length + sign.length + ds.length ∧ INT_MIN ≤ v ∧ v ≤ INT_MAX := by
  have hex : ∃ ws sign ds rest, IntPrefix t ws sign ds rest := by
    by_contra hno
    rw [(stoi_invalid_iff t).mpr hno] at h
    cases h
  obtain ⟨ws, sign, ds, rest, hp⟩ := hex
  have hs := stoi_of_IntPrefix hp
  by_cases hr : signedValue (decide (sign = ['-'])) ds < INT_MIN ∨
      INT_MAX < signedValue (decide (sign = ['-'])) ds
  · rw [if_pos hr, h] at hs
    cases hs
  · rw [if_neg hr, h] at hs
    rw [not_or] at hr
    injection hs with hs
    injection hs with hv hpos
    exact ⟨ws, sign, ds, rest, hp, hv, hpos, by omega, by omega⟩

namespace TemplateMatch

open MatchAny Template.PartAny

theorem PartTryMatcher_cases (part : Template.PartAny) (tape : Tape) :
    PartTryMatcher part tape = .error Error.out_of_range ∨
    ∃ b m tape2, PartTryMatcher part tape = .ok (b, m, tape2) ∧ kindMatches part m = true ∧
      tape2.input.length ≤ tape.input.length ∧
      (tape.input.length ≤ SIZE_MAX → m.representable = true) := by
  obtain ⟨t⟩ := tape
  cases part with
  | PartConst s =>
    refine Or.inr ?_
    rw [PartTryMatcher_const]
    by_cases hp : s <+: t
    · exact ⟨true, MatchConst, ⟨t.drop s.length⟩, by simp [hp], rfl, by simp, fun _ => rfl⟩
    · exact ⟨false, MatchConst, ⟨t⟩, by simp [hp], rfl, by simp, fun _ => rfl⟩
  | PartInt =>
    rcases stoi_cases t with h1 | h1 | ⟨v, pos, h1⟩
    · exact Or.inr ⟨false, MatchInt 0, ⟨t⟩, PartTryMatcher_int_invalid h1, rfl, by simp,
        fun _ => by decide⟩
    · exact Or.inl (PartTryMatcher_int_out_of_range h1)
    · obtain ⟨ws, sign, ds, rest, hp, _, hpos, hmin, hmax⟩ := stoi_ok_IntPrefix h1
      have hlen : ¬ t.length < pos := by rw [hpos]; exact hp.drop.2
      refine Or.inr ⟨true, MatchInt v, ⟨t.drop pos⟩, PartTryMatcher_int_ok h1 hlen, rfl,
        by simp, fun _ => ?_⟩
      simp [MatchAny.representable, hmin, hmax]
  | PartString =>
    refine Or.inr ⟨_, _, _, PartTryMatcher_string t, rfl, ?_, fun hlen => ?_⟩
    · rw [dropWhile_eq_drop_takeWhile]
      simp
    · have := (List.takeWhile_prefix (fun c => c != ' ') (l := t)).length_le
      simp only [MatchAny.representable, decide_eq_true_eq]
      simp only at hlen
      omega

theorem TryMatchLoop_cases (parts : List Template.PartAny) :
    ∀ (tape : Tape) (acc : List MatchAny),
      TryMatchLoop parts tape acc = .error Error.out_of_range ∨
      (∃ R, TryMatchLoop parts tape acc = .ok (none, R)) ∨
      ∃ ms R, TryMatchLoop parts tape acc = .ok (some ⟨acc ++ ms⟩, R) ∧
        List.Forall₂ (fun p m => kindMatches p m = true) parts ms ∧
        R.input.length ≤ tape.input.length ∧
        (tape.input.length ≤ SIZE_MAX → ∀ m ∈ ms, m.representable = true) := by
  induction parts with
  | nil =>
    intro tape acc
    exact Or.inr (Or.inr ⟨[], tape, by simp [TryMatchLoop], List.Forall₂.nil, Nat.le_refl _,
      fun _ m hm => by simp at hm⟩)
  | cons part rest ih =>
    intro tape acc
    rcases PartTryMatcher_cases part tape with h | ⟨b, m, tape2, h, hk, hlen, hrep⟩
    · exact Or.inl (by simp [TryMatchLoop, h])
    · cases b with
      | false => exact Or.inr (Or.inl ⟨tape2, by simp [TryMatchLoop, h]⟩)
      | true =>
        rcases ih tape2 (acc ++ [m]) with h2 | ⟨R, h2⟩ | ⟨ms, R, h2, hf, hlen2, hrep2⟩
        · exact Or.inl (by simp [TryMatchLoop, h, h2])
        · exact Or.inr (Or.inl ⟨R, by simp [TryMatchLoop, h, h2]⟩)
        · refine Or.inr (Or.inr ⟨m :: ms, R, by simp [TryMatchLoop, h, h2],
            List.Forall₂.cons hk hf, by omega, fun hle m2 hm2 => ?_⟩)
          rcases List.mem_cons.mp hm2 with rfl | hmem
          · exact hrep hle
          · exact hrep2 (by omega) m2 hmem

theorem TryMatch_ok_some {T : Template} {L : List Char} {M : TemplateMatch} {R : Tape}
    (h : TryMatch T ⟨L⟩ = .ok (some M, R)) :
    List.Forall₂ (fun p m => kindMatches p m = true) T.parts M.parts ∧
      R.input.length ≤ L.length ∧
      (L.length ≤ SIZE_MAX → ∀ m ∈ M.parts, m.representable = true) := by
  unfold TryMatch at h
  rcases TryMatchLoop_cases T.parts ⟨L⟩ [] with h2 | ⟨R2, h2⟩ | ⟨ms, R2, h2, hf, hlen, hrep⟩
  · rw [h2] at h; cases h
  · rw [h2] at h; cases h
  · rw [h2] at h
    cases h
    exact ⟨by simpa using hf, hlen, by simpa using hrep⟩

theorem MaterializeLoop_of_kinds {parts : List Template.PartAny} {ms : List MatchAny}
    (h : List.Forall₂ (fun p m => kindMatches p m = true) parts ms) :
    ∀ (tpl : Template) (i : Nat) (result : List Char),
      (∀ j, j < parts.length → tpl.parts.get? (i + j) = parts.get? j) →
      ∃ text, MaterializeLoop tpl i ms result = .ok (result ++ text) := by
  induction h with
  | nil => intro tpl i result _; exact ⟨[], by simp [MaterializeLoop]⟩
  | @cons p m ps ms2 hk _ ih =>
    intro tpl i result hget
    have h0 : tpl.parts.get? i = some p := by
      have := hget 0 (by simp)
      simpa using this
    have hs : ∃ s, MatchedPartMaterilizer p m = .ok s := by
      cases p <;> cases m <;> first | exact ⟨_, rfl⟩ | simp [kindMatches] at hk
    obtain ⟨s, hs⟩ := hs
    obtain ⟨text, ht⟩ := ih tpl (i + 1) (result ++ s) (fun j hj => by
      have := hget (j + 1) (by simp; omega)
      simpa [Nat.add_assoc, Nat.add_comm 1 j] using this)
    exact ⟨s ++ text, by simp only [MaterializeLoop, h0, hs, ht, List.append_assoc]⟩

theorem Materialize_of_kinds {T : Template} {M : TemplateMatch}
    (h : List.Forall₂ (fun p m => kindMatches p m = true) T.parts M.parts) :
    ∃ text, M.Materialize T = .ok text := by
  obtain ⟨text, ht⟩ := MaterializeLoop_of_kinds h T 0 [] (fun j _ => by simp)
  exact ⟨text, by simpa [Materialize] using ht⟩

theorem forall₂_get? {α β : Type} {r : α → β → Prop} {l1 : List α} {l2 : List β}
    (h : List.Forall₂ r l1 l2) :
    ∀ (i : Nat) (a : α) (b : β), l1.get? i = some a → l2.get? i = some b → r a b := by
  induction h with
  | nil => intro i a b ha; simp at ha
  | cons hr _ ih =>
    intro i a b ha hb
    cases i with
    | zero =>
      simp at ha hb
      subst ha hb
      exact hr
    | succ i => exact ih i a b (by simpa using ha) (by simpa using hb)

/-- C11: if `TryMatch(T, L)` returns a match `M`, then `M` has as many parts as
`T` and at every index the kind of the matched value corresponds to the kind of
the template part (`MatchConst` for `PartConst`, `MatchInt` for `PartInt`,
`MatchString` for `PartString`); hence `M.Materialize(T)` returns a string: it
meets no part of the wrong kind and no index out of range. -/
theorem TryMatch_shape (T : Template) (L : List Char) (M : TemplateMatch) (R : Tape)
    (h : TryMatch T ⟨L⟩ = .ok (some M, R)) :
    M.parts.length = T.parts.length ∧
    (∀ i p m, T.parts.get? i = some p → M.parts.get? i = some m → kindMatches p m = true) ∧
    ∃ text, M.Materialize T = .ok text := by
  obtain ⟨hf, _, _⟩ := TryMatch_ok_some h
  exact ⟨hf.length_eq.symm, forall₂_get? hf, Materialize_of_kinds hf⟩

/-- An instance of `TryMatch_shape`: the template of `%d ms %s` on the line
`007 ms x y`. -/
theorem TryMatch_shape_witness :
    TryMatch ⟨[PartConst [], PartInt, PartConst " ms ".toList, PartString, PartConst []]⟩
        ⟨"007 ms x y".toList⟩ =
        .ok (some ⟨[MatchConst, MatchInt 7, MatchConst, MatchString ['x'], MatchConst]⟩,
          ⟨" y".toList⟩) ∧
      ∃ text, Materialize ⟨[MatchConst, MatchInt 7, MatchConst, MatchString ['x'], MatchConst]⟩
        ⟨[PartConst [], PartInt, PartConst " ms ".toList, PartString, PartConst []]⟩ = .ok text :=
  ⟨by decide,
    (TryMatch_shape
      ⟨[PartConst [], PartInt, PartConst " ms ".toList, PartString, PartConst []]⟩
      "007 ms x y".toList
      ⟨[MatchConst, MatchInt 7, MatchConst, MatchString ['x'], MatchConst]⟩ ⟨" y".toList⟩
      (by decide)).2.2⟩

end TemplateMatch

/-! ## The record format -/

namespace TemplateMatch

open MatchAny Template.PartAny

theorem MatchedPartWriter_eq (out : List Char) (m : MatchAny) :
    MatchedPartWriter out m = out ++ serializedPart m := by
  cases m <;> simp [MatchedPartWriter, serializedPart]

theorem foldl_MatchedPartWriter_eq (ps : List MatchAny) :
    ∀ out : List Char,
      ps.foldl MatchedPartWriter out = out ++ (ps.map serializedPart).flatten := by
  induction ps with
  | nil => intro out; simp
  | cons m ps ih =>
    intro out
    simp only [List.foldl_cons, List.map_cons, List.flatten_cons]
    rw [ih, MatchedPartWriter_eq, List.append_assoc]

/-- C12: `TemplateMatch::Write` appends to the stream exactly the tokens of the
parts, in order, `C` for a `MatchConst`, `I`, the decimal text of `v` and `|`
for a `MatchInt(v)`, `S`, the decimal length of `s`, `:` and the bytes of `s`
as they are for a `MatchString(s)`, and then one newline. -/
theorem Write_format (M : TemplateMatch) (out : List Char) :
    M.Write out = out ++ (M.parts.map serializedPart).flatten ++ ['\n'] ∧
    serializedPart MatchConst = ['C'] ∧
    (∀ v : Int, serializedPart (MatchInt v) = 'I' :: (intToString v ++ ['|'])) ∧
    (∀ s : List Char,
      serializedPart (MatchString s) = 'S' :: (natToString s.length ++ ':' :: s)) ∧
    Write ⟨[MatchConst, MatchInt (-12), MatchString "a|:\n7".toList, MatchConst]⟩ [] =
      "CI-12|S5:a|:\n7C\n".toList := by
  refine ⟨?_, rfl, fun v => by simp [serializedPart], fun s => by simp [serializedPart],
    by decide⟩
  simp only [Write]
  rw [foldl_MatchedPartWriter_eq]

end TemplateMatch

/-! ## Percent escaping -/

namespace Template

open PartAny TemplateMatch TemplateMatch.MatchAny

theorem ParseLoop_escapePercent (s : List Char) :
    ∀ (init : List PartAny) (acc : List Char),
      ParseLoop (escapePercent s) (init ++ [PartConst acc]) =
        .ok (init ++ [PartConst (acc ++ s)]) := by
  induction s with
  | nil => intro init acc; simp [escapePercent, ParseLoop]
  | cons c rest ih =>
    intro init acc
    by_cases hc : c = '%'
    · subst hc
      simp only [escapePercent, if_true]
      rw [ParseLoop_percent_percent, pushBackChar_append_const]
      simp only
      rw [ih]
      simp
    · simp only [escapePercent, hc, if_false]
      rw [ParseLoop_cons_char c _ _ hc, pushBackChar_append_const]
      simp only
      rw [ih]
      simp

theorem escapePercent_isEmpty (s : List Char) (h : s ≠ []) :
    (escapePercent s).isEmpty = false := by
  cases s with
  | nil => exact absurd rfl h
  | cons c rest =>
    by_cases hc : c = '%'
    · simp [escapePercent, hc]
    · simp [escapePercent, hc]

/-- C16: for every non-empty string `s`, `Template::Parse` on `s` with every `%`
doubled yields the template with the single part `PartConst(s)`, and
`TryMatch` of that template on `s` succeeds with the match `[MatchConst]` and
leaves nothing on the tape.  `Parse("100%% done")` is the literal `100% done`,
which matches `100% done`. -/
theorem Parse_escapePercent (s : List Char) (h : s ≠ []) :
    Parse (escapePercent s) = .ok ⟨[PartConst s]⟩ ∧
    TryMatch ⟨[PartConst s]⟩ ⟨s⟩ = .ok (some ⟨[MatchConst]⟩, ⟨[]⟩) := by
  constructor
  · unfold Parse
    rw [escapePercent_isEmpty s h]
    have := ParseLoop_escapePercent s [] []
    simp only [List.nil_append] at this
    simp [this]
  · simp [TryMatch, TryMatchLoop, PartTryMatcher_const]

/-- An instance of `Parse_escapePercent`: `Parse("100%% done")` is the literal
`100% done`, and it matches the line `100% done`. -/
theorem Parse_escapePercent_witness :
    escapePercent "100% done".toList = "100%% done".toList ∧
    Parse (escapePercent "100% done".toList) = .ok ⟨[PartConst "100% done".toList]⟩ ∧
    TryMatch ⟨[PartConst "100% done".toList]⟩ ⟨"100% done".toList⟩ =
      .ok (some ⟨[MatchConst]⟩, ⟨[]⟩) :=
  ⟨by decide, Parse_escapePercent "100% done".toList (by decide)⟩

end Template

/-! ## Aborted matches, templates without integer holes, canonical integers -/

namespace TemplateMatch

open MatchAny Template.PartAny

theorem TryMatch_error {T : Template} {L : List Char} {e : Error}
    (h : TryMatch T ⟨L⟩ = .error e) : e = Error.out_of_range := by
  unfold TryMatch at h
  rcases TryMatchLoop_cases T.parts ⟨L⟩ [] with h2 | ⟨R2, h2⟩ | ⟨ms, R2, h2, _⟩
  · rw [h2] at h
    injection h with h
    exact h.symm
  · rw [h2] at h; cases h
  · rw [h2] at h; cases h

/-- C17, the failing input: the template `%d` on the line `99999999999` makes
`TryMatch` leave with `std::out_of_range`, which `MatchAndWriteEncoded` passes
on, so the run ends instead of continuing with the next line.  That exception
is the only one `TryMatch` can leave with: no `Tape::Shift` of the matching
throws. -/
theorem TryMatch_out_of_range :
    Template.Parse "%d".toList = .ok ⟨[PartConst [], PartInt, PartConst []]⟩ ∧
    TryMatch ⟨[PartConst [], PartInt, PartConst []]⟩ ⟨"99999999999".toList⟩ =
      .error Error.out_of_range ∧
    MatchAndWriteEncoded "99999999999".toList [] [⟨[PartConst [], PartInt, PartConst []]⟩] =
      .error Error.out_of_range ∧
    (∀ (T : Template) (L : List Char) (e : Error),
      TryMatch T ⟨L⟩ = .error e → e = Error.out_of_range) := by
  refine ⟨by decide, by decide, by decide, fun T L e h => TryMatch_error h⟩

theorem intHolesCanonical_of_no_int (parts : List Template.PartAny)
    (h : ∀ p ∈ parts, p ≠ PartInt) :
    ∀ tape : Tape, intHolesCanonical parts tape = true := by
  induction parts with
  | nil => intro tape; rfl
  | cons part rest ih =>
    intro tape
    have hrest : ∀ p ∈ rest, p ≠ PartInt := fun p hp => h p (List.mem_cons_of_mem _ hp)
    have hpart : part ≠ PartInt := h part (by simp)
    rcases PartTryMatcher_cases part tape with h1 | ⟨b, m, tape2, h1, hk, _, _⟩
    · simp [intHolesCanonical, h1]
    · cases b with
      | false => simp [intHolesCanonical, h1]
      | true =>
        simp only [intHolesCanonical, h1, ih hrest tape2, Bool.and_true]
        cases m with
        | MatchConst => rfl
        | MatchString s => rfl
        | MatchInt v =>
          cases part with
          | PartInt => exact absurd rfl hpart
          | PartConst s => simp [kindMatches] at hk
          | PartString => simp [kindMatches] at hk

/-- C19: for every template `T` without an integer hole and every line `L`, if
`TryMatch(T, L)` succeeds with match `M` and leaves `R` on the tape, then
`M.Materialize(T)` followed by `R` is `L`: the materialized text is the prefix
of `L` that the match consumed. -/
theorem TryMatch_Materialize_prefix (T : Template) (L : List Char) (M : TemplateMatch)
    (R : Tape) (hno : ∀ p ∈ T.parts, p ≠ PartInt)
    (h : TryMatch T ⟨L⟩ = .ok (some M, R)) :
    ∃ text, M.Materialize T = .ok text ∧ text ++ R.input = L ∧
      text = L.take (L.length - R.input.length) := by
  obtain ⟨text, h1, h2, _⟩ :=
    TryMatch_materialize_remainder h (intHolesCanonical_of_no_int T.parts hno ⟨L⟩)
  refine ⟨text, h1, h2, ?_⟩
  rw [← h2]
  simp

/-- An instance of `TryMatch_Materialize_prefix`: the template of `GET %s` on
the line `GET /x y` materializes to `GET /x` and leaves ` y`. -/
theorem TryMatch_Materialize_prefix_witness :
    Template.Parse "GET %s".toList =
        .ok ⟨[PartConst "GET ".toList, PartString, PartConst []]⟩ ∧
      ∃ text, Materialize ⟨[MatchConst, MatchString "/x".toList, MatchConst]⟩
          ⟨[PartConst "GET ".toList, PartString, PartConst []]⟩ = .ok text ∧
        text ++ " y".toList = "GET /x y".toList ∧
        text = "GET /x y".toList.take ("GET /x y".toList.length - " y".toList.length) :=
  ⟨by decide,
    TryMatch_Materialize_prefix ⟨[PartConst "GET ".toList, PartString, PartConst []]⟩
      "GET /x y".toList ⟨[MatchConst, MatchString "/x".toList, MatchConst]⟩ ⟨" y".toList⟩
      (by decide) (by decide)⟩

/-- C20: for every `v` in the range of the 32-bit `int`, `TryMatch` of the
template `Parse("%d")` on the canonical decimal text of `v` succeeds with the
match `[MatchConst, MatchInt(v), MatchConst]`, leaves nothing on the tape, and
`Materialize` of that match returns the same text. -/
theorem canonical_int_roundtrip (v : Int) (hmin : INT_MIN ≤ v) (hmax : v ≤ INT_MAX) :
    Template.Parse "%d".toList = .ok ⟨[PartConst [], PartInt, PartConst []]⟩ ∧
    TryMatch ⟨[PartConst [], PartInt, PartConst []]⟩ ⟨intToString v⟩ =
      .ok (some ⟨[MatchConst, MatchInt v, MatchConst]⟩, ⟨[]⟩) ∧
    Materialize ⟨[MatchConst, MatchInt v, MatchConst]⟩ ⟨[PartConst [], PartInt, PartConst []]⟩ =
      .ok (intToString v) := by
  obtain ⟨hp, hv⟩ := intToString_IntPrefix v [] (fun c hc => by simp at hc)
  have hm := PartTryMatcher_int_of_IntPrefix hp (by rw [hv]; exact hmin) (by rw [hv]; exact hmax)
  rw [hv, List.append_nil] at hm
  refine ⟨by decide, ?_, ?_⟩
  · simp [TryMatch, TryMatchLoop, PartTryMatcher_const, hm]
  · simp [Materialize, MaterializeLoop, MatchedPartMaterilizer]

/-- An instance of `canonical_int_roundtrip`: the smallest `int`. -/
theorem canonical_int_roundtrip_witness :
    intToString (-2147483648) = "-2147483648".toList ∧
    TryMatch ⟨[PartConst [], PartInt, PartConst []]⟩ ⟨intToString (-2147483648)⟩ =
      .ok (some ⟨[MatchConst, MatchInt (-2147483648), MatchConst]⟩, ⟨[]⟩) ∧
    Materialize ⟨[MatchConst, MatchInt (-2147483648), MatchConst]⟩
      ⟨[PartConst [], PartInt, PartConst []]⟩ = .ok (intToString (-2147483648)) :=
  ⟨by decide, (canonical_int_roundtrip (-2147483648) (by decide) (by decide)).2⟩

end TemplateMatch

/-! ## Deserialization: delimiters -/

namespace IStream

theorem extractInt_IntPrefix {t sign ds rest : List Char}
    (h : IntPrefix t [] sign ds rest) (u : Int) :
    (ofInput t).extractInt u =
      if signedValue (decide (sign = ['-'])) ds < INT_MIN then
        (⟨rest, rest.isEmpty, true⟩, INT_MIN)
      else if INT_MAX < signedValue (decide (sign = ['-'])) ds then
        (⟨rest, rest.isEmpty, true⟩, INT_MAX)
      else (⟨rest, rest.isEmpty, false⟩, signedValue (decide (sign = ['-'])) ds) := by
  obtain ⟨_, h2, h3, h4, h5⟩ := h.computed
  have ht : t = sign ++ (ds ++ rest) := by simpa using h.1
  have hds : ds ≠ [] := h.2.2.2.1
  have htne : t ≠ [] := by
    rw [ht]
    cases ds with
    | nil => exact absurd rfl hds
    | cons d ds2 => simp
  have hsentry := sentry_ofInput t (by rw [h2, ← ht]) htne
  unfold extractInt
  rw [hsentry]
  simp only [ofInput]
  rw [ht, h3]
  simp only [List.drop_left, h4, h5]
  have h6 : ds.isEmpty = false := by
    cases ds with
    | nil => exact absurd rfl hds
    | cons d ds2 => rfl
  simp [h6]

theorem extractSize_digits {ds rest : List Char} (hds : ds ≠ [])
    (hall : ∀ c ∈ ds, isdigit c = true) (hrest : ∀ c, rest.head? = some c → isdigit c = false)
    (u : Nat) :
    (ofInput (ds ++ rest)).extractSize u =
      if SIZE_MAX < digitsValue ds then (⟨rest, rest.isEmpty, true⟩, SIZE_MAX)
      else (⟨rest, rest.isEmpty, false⟩, digitsValue ds) := by
  have hp : IntPrefix (ds ++ rest) [] [] ds rest :=
    ⟨by simp, by simp, Or.inl rfl, hds, hall, hrest⟩
  obtain ⟨_, h2, h3, h4, h5⟩ := hp.computed
  have htne : ds ++ rest ≠ [] := by
    cases ds with
    | nil => exact absurd rfl hds
    | cons d ds2 => simp
  have hsentry := sentry_ofInput (ds ++ rest) (by simpa using h2) htne
  unfold extractSize
  rw [hsentry]
  simp only [ofInput]
  have h3b : readSign (ds ++ rest) = (false, 0) := by simpa using h3
  rw [h3b]
  simp only [List.drop_zero, h4, h5]
  have h6 : ds.isEmpty = false := by
    cases ds with
    | nil => exact absurd rfl hds
    | cons d ds2 => rfl
  simp [h6]

theorem get_keeps_of_not_good (s : IStream) (c : Char) (h : s.good = false) :
    (s.get c).2 = c := by
  simp [get, h]

theorem get_ne_of_head (input : List Char) (e f : Bool) (c d : Char) (hc : c ≠ d)
    (hhead : ∀ x, input.head? = some x → x ≠ d) :
    ((⟨input, e, f⟩ : IStream).get c).2 ≠ d := by
  unfold get
  split
  · cases input with
    | nil => exact hc
    | cons x r => exact hhead x rfl
  · exact hc

end IStream

namespace TemplateMatch

open MatchAny

theorem ReadLoop_I_bad_delimiter (u : Uninit) (fuel : Nat) (c : Char) (acc : List MatchAny)
    (sign ds next : List Char) (hsign : sign = [] ∨ sign = ['+'] ∨ sign = ['-'])
    (hds : ds ≠ []) (hall : ∀ d ∈ ds, isdigit d = true)
    (hnext : ∀ x, next.head? = some x → isdigit x = false ∧ x ≠ '|') :
    ReadLoop u (fuel + 1) (IStream.ofInput ('I' :: (sign ++ (ds ++ next)))) c acc =
      some (.error Error.bad_format) := by
  have hp : IntPrefix (sign ++ (ds ++ next)) [] sign ds next :=
    ⟨by simp, by simp, hsign, hds, hall, fun x hx => (hnext x hx).1⟩
  have hx := IStream.extractInt_IntPrefix hp u.val
  have hhead : ∀ x, next.head? = some x → x ≠ '|' := fun x hx => (hnext x hx).2
  have hI : ('I' : Char) ≠ '|' := by decide
  have e1 : ¬ ('I' : Char) = '\n' := by decide
  have e2 : ¬ ('I' : Char) = 'C' := by decide
  simp only [ReadLoop, IStream.get_ofInput_cons, e1, e2, if_false, if_true]
  rw [hx]
  split_ifs <;> first
    | rfl
    | (rename_i h; exact absurd (IStream.get_ne_of_head _ _ _ 'I' '|' hI hhead) h)

theorem ReadLoop_S_bad_delimiter (u : Uninit) (fuel : Nat) (c : Char) (acc : List MatchAny)
    (ds next : List Char) (hds : ds ≠ []) (hall : ∀ d ∈ ds, isdigit d = true)
    (hnext : ∀ x, next.head? = some x → isdigit x = false ∧ x ≠ ':') :
    ReadLoop u (fuel + 1) (IStream.ofInput ('S' :: (ds ++ next))) c acc =
      some (.error Error.bad_format) := by
  have hx := IStream.extractSize_digits hds hall (fun x hx => (hnext x hx).1) u.len
  have hhead : ∀ x, next.head? = some x → x ≠ ':' := fun x hx => (hnext x hx).2
  have hS : ('S' : Char) ≠ ':' := by decide
  have e1 : ¬ ('S' : Char) = '\n' := by decide
  have e2 : ¬ ('S' : Char) = 'C' := by decide
  have e3 : ¬ ('S' : Char) = 'I' := by decide
  simp only [ReadLoop, IStream.get_ofInput_cons, e1, e2, e3, if_false, if_true]
  rw [hx]
  split_ifs <;> first
    | rfl
    | (rename_i h; exact absurd (IStream.get_ne_of_head _ _ _ 'S' ':' hS hhead) h)

end TemplateMatch

namespace TemplateMatch

open MatchAny

theorem ReadLoop_tokens (u : Uninit) (ps : List MatchAny) :
    ∀ (acc : List MatchAny) (c : Char) (rest : List Char) (k : Nat),
      (∀ m ∈ ps, m.representable = true) →
      ∃ c2, ReadLoop u (ps.length + k)
          (IStream.ofInput ((ps.map serializedPart).flatten ++ rest)) c acc =
        ReadLoop u k (IStream.ofInput rest) c2 (acc ++ ps) := by
  induction ps with
  | nil =>
    intro acc c rest k _
    exact ⟨c, by simp⟩
  | cons m ps ih =>
    intro acc c rest k hrep
    have hrep2 : ∀ m2 ∈ ps, m2.representable = true :=
      fun m2 hm2 => hrep m2 (List.mem_cons_of_mem _ hm2)
    have hm := hrep m (by simp)
    have hfuel : (m :: ps).length + k = (ps.length + k) + 1 := by simp; omega
    rw [hfuel]
    cases m with
    | MatchConst =>
      obtain ⟨c2, h2⟩ := ih (acc ++ [MatchConst]) 'C' rest k hrep2
      refine ⟨c2, ?_⟩
      simp only [List.map_cons, List.flatten_cons, serializedPart, List.singleton_append,
        List.cons_append, ReadLoop, IStream.get_ofInput_cons]
      simpa using h2
    | MatchInt v =>
      simp only [MatchAny.representable, decide_eq_true_eq] at hm
      have hx := IStream.extractInt_intToString v hm.1 hm.2
        ('|' :: ((ps.map serializedPart).flatten ++ rest)) (by simp)
        (fun c hc => by simp at hc; subst hc; decide) u.val
      obtain ⟨c2, h2⟩ := ih (acc ++ [MatchInt v]) '|' rest k hrep2
      refine ⟨c2, ?_⟩
      simp only [List.map_cons, List.flatten_cons, serializedPart, List.singleton_append,
        List.cons_append, List.nil_append, List.append_assoc, ReadLoop,
        IStream.get_ofInput_cons]
      rw [hx]
      simp only [IStream.get_ofInput_cons]
      simpa using h2
    | MatchString s =>
      simp only [MatchAny.representable, decide_eq_true_eq] at hm
      have hx := IStream.extractSize_natToString s.length hm
        (':' :: (s ++ ((ps.map serializedPart).flatten ++ rest))) (by simp)
        (fun c hc => by simp at hc; subst hc; decide) u.len
      obtain ⟨c2, h2⟩ := ih (acc ++ [MatchString s]) ':' rest k hrep2
      refine ⟨c2, ?_⟩
      simp only [List.map_cons, List.flatten_cons, serializedPart, List.singleton_append,
        List.cons_append, List.nil_append, List.append_assoc, ReadLoop,
        IStream.get_ofInput_cons]
      rw [hx]
      simp only [IStream.get_ofInput_cons, IStream.read_ofInput_append]
      simpa using h2

/-- C13: whenever the loop of `TemplateMatch::Read` reads the tag `I` and the
decimal number after it (an optional sign and all its digits) is not followed
by `|`, be it another byte or the end of the input, or reads the tag `S` and
the decimal length after it is not followed by `:`, `Read` throws the "bad
format" error and returns no match; in particular so does `Read` on any
sequence of well-formed tokens followed by such an `I` or `S` token. -/
theorem Read_bad_delimiter (u : Uninit) (ps : List MatchAny)
    (hrep : ∀ m ∈ ps, m.representable = true) (sign ds next : List Char)
    (hds : ds ≠ []) (hall : ∀ d ∈ ds, isdigit d = true) :
    (sign = [] ∨ sign = ['+'] ∨ sign = ['-'] →
      (∀ x, next.head? = some x → isdigit x = false ∧ x ≠ '|') →
      (∀ (fuel : Nat) (c : Char) (acc : List MatchAny),
        ReadLoop u (fuel + 1) (IStream.ofInput ('I' :: (sign ++ (ds ++ next)))) c acc =
          some (.error Error.bad_format)) ∧
      ∀ fuel, ps.length < fuel →
        Read u fuel (IStream.ofInput
          ((ps.map serializedPart).flatten ++ 'I' :: (sign ++ (ds ++ next)))) =
          some (.error Error.bad_format)) ∧
    ((∀ x, next.head? = some x → isdigit x = false ∧ x ≠ ':') →
      (∀ (fuel : Nat) (c : Char) (acc : List MatchAny),
        ReadLoop u (fuel + 1) (IStream.ofInput ('S' :: (ds ++ next))) c acc =
          some (.error Error.bad_format)) ∧
      ∀ fuel, ps.length < fuel →
        Read u fuel (IStream.ofInput ((ps.map serializedPart).flatten ++ 'S' :: (ds ++ next))) =
          some (.error Error.bad_format)) := by
  constructor
  · intro hsign hnext
    refine ⟨fun fuel c acc =>
      ReadLoop_I_bad_delimiter u fuel c acc sign ds next hsign hds hall hnext, ?_⟩
    intro fuel hfuel
    obtain ⟨k, rfl⟩ : ∃ k, fuel = ps.length + (k + 1) := ⟨fuel - ps.length - 1, by omega⟩
    obtain ⟨c2, h2⟩ := ReadLoop_tokens u ps [] u.c ('I' :: (sign ++ (ds ++ next))) (k + 1) hrep
    unfold Read
    rw [h2]
    exact ReadLoop_I_bad_delimiter u k c2 _ sign ds next hsign hds hall hnext
  · intro hnext
    refine ⟨fun fuel c acc => ReadLoop_S_bad_delimiter u fuel c acc ds next hds hall hnext, ?_⟩
    intro fuel hfuel
    obtain ⟨k, rfl⟩ : ∃ k, fuel = ps.length + (k + 1) := ⟨fuel - ps.length - 1, by omega⟩
    obtain ⟨c2, h2⟩ := ReadLoop_tokens u ps [] u.c ('S' :: (ds ++ next)) (k + 1) hrep
    unfold Read
    rw [h2]
    exact ReadLoop_S_bad_delimiter u k c2 _ ds next hds hall hnext

/-- An instance of `Read_bad_delimiter`: after the token `C`, the record
`I-12;` and the record `S3;abc` are both rejected. -/
theorem Read_bad_delimiter_witness :
    Read ⟨'x', 0, 0⟩ 2 (IStream.ofInput
        (([MatchConst].map serializedPart).flatten ++ 'I' :: (['-'] ++ (['1', '2'] ++ [';'])))) =
      some (.error Error.bad_format) ∧
    Read ⟨'x', 0, 0⟩ 2 (IStream.ofInput
        (([MatchConst].map serializedPart).flatten ++ 'S' :: (['1', '2'] ++ [';']))) =
      some (.error Error.bad_format) :=
  have h := Read_bad_delimiter ⟨'x', 0, 0⟩ [MatchConst] (by decide) ['-'] ['1', '2'] [';']
    (by decide) (by decide)
  ⟨(h.1 (by decide) (by decide)).2 2 (by decide), (h.2 (by decide)).2 2 (by decide)⟩

end TemplateMatch

/-! ## Deserialization at the end of the input -/

namespace TemplateMatch

open MatchAny

theorem ReadLoop_exhausted (u : Uninit) :
    ∀ (fuel : Nat) (e f : Bool) (c : Char) (parts : List MatchAny),
      c ≠ '\n' → c ≠ 'I' → c ≠ 'S' →
      ReadLoop u fuel ⟨[], e, f⟩ c parts = none := by
  intro fuel
  induction fuel with
  | zero => intro e f c parts _ _ _; rfl
  | succ fuel ih =>
    intro e f c parts h1 h2 h3
    have hget : ∃ e2 f2, (⟨[], e, f⟩ : IStream).get c = (⟨[], e2, f2⟩, c) := by
      unfold IStream.get
      split
      · exact ⟨true, true, rfl⟩
      · exact ⟨e, true, rfl⟩
    obtain ⟨e2, f2, hg⟩ := hget
    simp only [ReadLoop, hg, h1, h2, h3, if_false]
    split_ifs
    · exact ih e2 f2 c _ h1 h2 h3
    · exact ih e2 f2 c _ h1 h2 h3

/-- C15, the failing inputs: on the input `S5:ab`, where two of the five
announced bytes are present, and on the input `C`, which ends before the
newline, the loop of `TemplateMatch::Read` never ends, whatever the number of
iterations allowed: at the end of the input `in.get(c)` leaves `c` as it was and
the loop tests only `c`.  `Read` does throw "bad format" on the input `I5`,
where the old `c` is the tag `I`. -/
theorem Read_truncated_never_returns (u : Uninit) :
    (∀ fuel, Read u fuel (IStream.ofInput "S5:ab".toList) = none) ∧
    (∀ fuel, Read u fuel (IStream.ofInput "C".toList) = none) ∧
    (∀ fuel, Read u (fuel + 1) (IStream.ofInput "I5".toList) =
      some (.error Error.bad_format)) := by
  refine ⟨?_, ?_, ?_⟩
  · intro fuel
    cases fuel with
    | zero => rfl
    | succ fuel =>
      have h : Read u (fuel + 1) (IStream.ofInput "S5:ab".toList) =
          ReadLoop u fuel ⟨[], true, true⟩ ':' [MatchString "ab...".toList] := rfl
      rw [h]
      exact ReadLoop_exhausted u fuel true true ':' _ (by decide) (by decide) (by decide)
  · intro fuel
    cases fuel with
    | zero => rfl
    | succ fuel =>
      have h : Read u (fuel + 1) (IStream.ofInput "C".toList) =
          ReadLoop u fuel ⟨[], false, false⟩ 'C' [MatchConst] := rfl
      rw [h]
      exact ReadLoop_exhausted u fuel false false 'C' _ (by decide) (by decide) (by decide)
  · intro fuel
    rfl

end TemplateMatch

/-! ## Decoding -/

open TemplateMatch TemplateMatch.MatchAny Template.PartAny in
/-- C14, the failing input: with the single template `a`, the record `1C` and a
newline names the index 1, which is not below the size 1 of the list.  `Decode`
reads the match and then evaluates `tpls[1]` with no check of the range: an
access past the end of the vector, not a format error. -/
theorem Decode_index_out_of_range (u : Uninit) (tpl_idx0 fuel : Nat) :
    Template.Parse "a".toList = .ok ⟨[PartConst ['a']]⟩ ∧
    Decode u tpl_idx0 (fuel + 3) [⟨[PartConst ['a']]⟩] (IStream.ofInput "1C\n".toList) =
      some ([], some Error.out_of_bounds) ∧
    Decode u tpl_idx0 (fuel + 3) [⟨[PartConst ['a']]⟩] (IStream.ofInput "1C\n".toList) ≠
      some ([], some Error.bad_format) := by
  refine ⟨by decide, rfl, ?_⟩
  have h : Decode u tpl_idx0 (fuel + 3) [⟨[PartConst ['a']]⟩]
      (IStream.ofInput "1C\n".toList) = some ([], some Error.out_of_bounds) := rfl
  rw [h]
  decide

open TemplateMatch in
theorem DecodeLoop_record (u : Uninit) (tpls : List Template) (i : Nat) (T : Template)
    (M : TemplateMatch) (text : List Char) (tpl_idx0 : Nat) (out : List Char) (fuel : Nat)
    (hT : tpls.get? i = some T) (hi : i ≤ SIZE_MAX)
    (hrep : ∀ m ∈ M.parts, m.representable = true) (hmat : M.Materialize T = .ok text)
    (hfuel : M.parts.length + 1 < fuel) :
    DecodeLoop u tpls fuel (IStream.ofInput (natToString i ++ M.Write [])) tpl_idx0 out =
      some (out ++ text ++ ['\n'], none) := by
  obtain ⟨g, rfl⟩ : ∃ g, fuel = (g + 1) + 1 := ⟨fuel - 2, by omega⟩
  obtain ⟨c, tl, hW, hc⟩ := Write_head M
  have hx : (IStream.ofInput (natToString i ++ M.Write [])).extractSize tpl_idx0 =
      (IStream.ofInput (M.Write []), i) := by
    apply IStream.extractSize_natToString i hi
    · rw [hW]; simp
    · intro d hd
      rw [hW] at hd
      simp at hd
      subst hd
      exact hc
  have hread : Read u (g + 1) (IStream.ofInput (M.Write [])) =
      some (.ok (M, IStream.ofInput [])) := by
    have := ReadLoop_Write u M.parts [] u.c [] (g + 1) (by omega) hrep
    simpa [Read] using this
  have hend : DecodeLoop u tpls (g + 1) (IStream.ofInput []) i (out ++ text ++ ['\n']) =
      some (out ++ text ++ ['\n'], none) := rfl
  rw [DecodeLoop, hx]
  have htb : (IStream.ofInput (M.Write [])).toBool = true := rfl
  simp only [htb, if_true, hread, hT, hmat]
  exact hend

open TemplateMatch in
/-- C18: whenever `MatchAndWriteEncoded` writes a record for a line `L` with the
templates `tpls`, the record is that of the first index `i` whose template
matches `L`, with the match `M`, and `Decode` on that record with the same
templates reads the index, reads the match, materializes it against `tpls[i]`
and writes exactly `M.Materialize(tpls[i])` followed by a newline, ending
without an exception.  The line and the list have lengths that a `size_t`
holds. -/
theorem encode_then_decode (tpls : List Template) (L : List Char) (record : List Char)
    (hL : L.length ≤ SIZE_MAX) (hn : tpls.length ≤ SIZE_MAX)
    (h : MatchAndWriteEncoded L [] tpls = .ok record) (hne : record ≠ []) :
    ∃ (i : Nat) (T : Template) (M : TemplateMatch) (R : Tape) (text : List Char),
      tpls.get? i = some T ∧ TryMatch T ⟨L⟩ = .ok (some M, R) ∧
      (∀ j T2, j < i → tpls.get? j = some T2 → ∃ R2, TryMatch T2 ⟨L⟩ = .ok (none, R2)) ∧
      record = natToString i ++ M.Write [] ∧
      M.Materialize T = .ok text ∧
      ∀ (u : Uninit) (tpl_idx0 fuel : Nat), M.parts.length + 1 < fuel →
        Decode u tpl_idx0 fuel tpls (IStream.ofInput record) = some (text ++ ['\n'], none) := by
  rcases MatchAndWriteEncodedLoop_ok L tpls 0 [] record h with
    ⟨h1, _⟩ | ⟨i, T, M, R, hT, hm, hbefore, hout⟩
  · exact absurd h1 hne
  · obtain ⟨hk, _, hrep⟩ := TryMatch_ok_some hm
    obtain ⟨text, hmat⟩ := Materialize_of_kinds hk
    have hrec : record = natToString i ++ M.Write [] := by simpa using hout
    have hi : i ≤ SIZE_MAX := by
      have hlt : i < tpls.length := by
        by_contra hge
        have : tpls.get? i = none := by
          rw [List.get?_eq_none]
          omega
        rw [this] at hT
        cases hT
      omega
    refine ⟨i, T, M, R, text, hT, hm, hbefore, hrec, hmat, ?_⟩
    intro u tpl_idx0 fuel hfuel
    have := DecodeLoop_record u tpls i T M text tpl_idx0 [] fuel hT hi (hrep hL) hmat hfuel
    rw [hrec]
    simpa [Decode] using this

open TemplateMatch TemplateMatch.MatchAny Template.PartAny in
/-- An instance of `encode_then_decode`: the templates `%s` and `GET %s` and
the line `GET /x`; the record is `0CS3:GETC` and decodes to `GET`. -/
theorem encode_then_decode_witness :
    MatchAndWriteEncoded "GET /x".toList []
        [⟨[PartConst [], PartString, PartConst []]⟩,
          ⟨[PartConst "GET ".toList, PartString, PartConst []]⟩] =
        .ok "0CS3:GETC\n".toList ∧
      Decode ⟨'x', 0, 0⟩ 0 5
        [⟨[PartConst [], PartString, PartConst []]⟩,
          ⟨[PartConst "GET ".toList, PartString, PartConst []]⟩]
        (IStream.ofInput "0CS3:GETC\n".toList) = some ("GET\n".toList, none) ∧
      ∃ (i : Nat) (T : Template) (M : TemplateMatch) (R : Tape) (text : List Char),
        [⟨[PartConst [], PartString, PartConst []]⟩,
          (⟨[PartConst "GET ".toList, PartString, PartConst []]⟩ : Template)].get? i = some T ∧
        TryMatch T ⟨"GET /x".toList⟩ = .ok (some M, R) ∧
        "0CS3:GETC\n".toList = natToString i ++ M.Write [] ∧
        M.Materialize T = .ok text :=
  ⟨by decide, by decide,
    match encode_then_decode
      [⟨[PartConst [], PartString, PartConst []]⟩,
        ⟨[PartConst "GET ".toList, PartString, PartConst []]⟩]
      "GET /x".toList "0CS3:GETC\n".toList (by decide) (by decide) (by decide) (by decide) with
    | ⟨i, T, M, R, text, h1, h2, _, h4, h5, _⟩ => ⟨i, T, M, R, text, h1, h2, h4, h5⟩⟩
